import Mathlib

/-!
# Verification of `python-black`'s formatting core slice

Shallow embedding of `src/lib/common/black/__init__.py` (the repository's
vendored black core slice) and of the collaborating engine pieces that the
repository keeps outside this slice.  The tree-level functions
(`get_features_used`, `detect_target_versions`, `get_future_imports`, the
version-resolution and deprecation logic of `format_str`) are translated
directly from the source.  The parsing/rendering engine (`black.parsing`,
`black.linegen`, `black.mode` tables) is not under `src/` and is modelled
from the specification where a claim needs it; each such definition says so
in its doc comment.
-/

namespace PythonBlack

/-! ## Token and grammar-symbol codes

`blib2to3.pgen2.token` and the grammar symbol table `syms` assign distinct
numeric codes to token kinds and grammar rules.  The concrete numbers are
immaterial to every claim; only distinctness matters, which `decide` checks
wherever it is used. -/

namespace token

def NAME : Nat := 1
def NUMBER : Nat := 2
def STRING : Nat := 3
def NEWLINE : Nat := 4
def COLON : Nat := 11
def COMMA : Nat := 12
def STAR : Nat := 16
def SLASH : Nat := 17
def DOUBLESTAR : Nat := 36
def BACKQUOTE : Nat := 25
def COLONEQUAL : Nat := 59

end token

namespace syms

def simple_stmt : Nat := 256
def import_from : Nat := 257
def import_as_name : Nat := 258
def import_as_names : Nat := 259
def typedargslist : Nat := 260
def arglist : Nat := 261
def varargslist : Nat := 262
def argument : Nat := 263
def decorator : Nat := 264
def print_stmt : Nat := 265
def exec_stmt : Nat := 266
def tfpdef : Nat := 267
def except_clause : Nat := 268
def raise_stmt : Nat := 269

end syms

/-- Concrete syntax tree of the `blib2to3` fork: a `Leaf` carries a token
type and its literal text, a `Node` carries a grammar-rule type and its
ordered children (`blib2to3.pytree.Node` / `Leaf`). -/
inductive LN where
  | leaf (type : Nat) (value : String)
  | node (type : Nat) (children : List LN)

/-- `n.type` of a `blib2to3` tree object. -/
def LN.type : LN → Nat
  | .leaf t _ => t
  | .node t _ => t

/-- `n.value` (only leaves carry text; nodes have no `value` attribute and
the source never reads it on a node). -/
def LN.value : LN → String
  | .leaf _ v => v
  | .node _ _ => ""

/-- `n.children` (leaves have no children). -/
def LN.children : LN → List LN
  | .leaf _ _ => []
  | .node _ cs => cs

/-- `black.mode.Feature`: dialect-distinguishing constructs, as referenced by
`get_features_used` and `format_str` in the source slice. -/
inductive Feature where
  | F_STRINGS
  | NUMERIC_UNDERSCORES
  | LONG_INT_LITERAL
  | OCTAL_INT_LITERAL
  | POS_ONLY_ARGUMENTS
  | ASSIGNMENT_EXPRESSIONS
  | RELAXED_DECORATORS
  | TRAILING_COMMA_IN_CALL
  | TRAILING_COMMA_IN_DEF
  | PRINT_STMT
  | EXEC_STMT
  | AUTOMATIC_PARAMETER_UNPACKING
  | COMMA_STYLE_EXCEPT
  | COMMA_STYLE_RAISE
  | BACKQUOTE_REPR
  | UNICODE_LITERALS
  | ASYNC_IDENTIFIERS
deriving DecidableEq, Fintype

/-- `black.nodes.STARS`: the star token types (`*`, `**`).  `black.nodes` is
not under `src/`; the set is fixed by its use on argument-list children. -/
def STARS : Finset Nat := {token.STAR, token.DOUBLESTAR}

/-- Modelled from the spec: `is_simple_decorator_expression` from
`black.nodes` is not under `src/`.  The spec's
"relaxed-decorator-expression" feature tags decorators that are not simple
dotted names; we model a simple decorator expression as a bare `NAME` leaf.
No claim depends on the exact shape of this predicate. -/
def is_simple_decorator_expression : LN → Bool
  | .leaf t _ => t == token.NAME
  | .node _ _ => false

/-- The `token.NUMBER` branch of `get_features_used`
(`src/lib/common/black/__init__.py` lines 129-139), as a function of the
leaf text. -/
def numberFeats (v : String) : Finset Feature :=
  if v.data.contains '_' then {Feature.NUMERIC_UNDERSCORES}
  else if v.data.getLast? = some 'L' ∨ v.data.getLast? = some 'l' then
    {Feature.LONG_INT_LITERAL}
  else
    match v.data with
    | c0 :: c1 :: _ =>
      if c0 = '0' ∧ c1.isDigit then
        if ¬ v.data.all (fun c => c = '0') then {Feature.OCTAL_INT_LITERAL}
        else ∅
      else ∅
    | _ => ∅

/-- The `token.STRING` branch: f-string detection on the first two
characters of the literal text (line 124-127). -/
def stringFeats (v : String) : Finset Feature :=
  if v.take 2 ∈ (["f\"", "F\"", "f'", "F'", "rf", "fr", "RF", "FR"] : List String) then
    {Feature.F_STRINGS}
  else ∅

/-- The `token.SLASH` branch (lines 141-147): positional-only marker inside
an argument list. -/
def slashFeats (p : Option Nat) : Finset Feature :=
  if p = some syms.typedargslist ∨ p = some syms.arglist ∨ p = some syms.varargslist then
    {Feature.POS_ONLY_ARGUMENTS}
  else ∅

/-- The `syms.decorator` branch (lines 152-154) on the node's children. -/
def decoratorFeats (cs : List LN) : Finset Feature :=
  match cs with
  | _ :: c1 :: _ =>
    if ¬ is_simple_decorator_expression c1 then {Feature.RELAXED_DECORATORS} else ∅
  | _ => ∅

/-- The `typedargslist`/`arglist` trailing-comma branch (lines 156-169) on
the node's children: a trailing `COMMA` after a `*`/`**` child (directly or
inside an `argument` child) marks the trailing-comma feature. -/
def argStarFeats (isDefList : Bool) (cs : List LN) : Finset Feature :=
  if cs.getLast?.map LN.type = some token.COMMA then
    if cs.any (fun ch =>
        ch.type ∈ STARS
        ∨ (ch.type = syms.argument ∧ ch.children.any (fun a => a.type ∈ STARS))) then
      if isDefList then {Feature.TRAILING_COMMA_IN_DEF}
      else {Feature.TRAILING_COMMA_IN_CALL}
    else ∅
  else ∅

/-- The `except_clause`/`raise_stmt` branches (lines 180-192): a `COMMA` as
second-to-last child of a clause with at least four children. -/
def commaClauseFeats (f : Feature) (cs : List LN) : Finset Feature :=
  if 4 ≤ cs.length ∧ cs[cs.length - 2]?.map LN.type = some token.COMMA then
    {f}
  else ∅

/-- One step of the `elif` chain of `get_features_used` (lines 123-195),
for a node `n` whose parent (if any) has type `p`.  Mirrors the source
chain branch for branch; the source's single
`elif n.type in {typedargslist, arglist} and trailing-comma` test is split
into one test per type here, which is equivalent because no later branch
of the chain tests those two types. -/
def nodeFeats (p : Option Nat) (n : LN) : Finset Feature :=
  if n.type = token.STRING then stringFeats n.value
  else if n.type = token.NUMBER then numberFeats n.value
  else if n.type = token.SLASH then slashFeats p
  else if n.type = token.COLONEQUAL then {Feature.ASSIGNMENT_EXPRESSIONS}
  else if n.type = syms.decorator then decoratorFeats n.children
  else if n.type = syms.typedargslist then argStarFeats true n.children
  else if n.type = syms.arglist then argStarFeats false n.children
  else if n.type = syms.print_stmt then {Feature.PRINT_STMT}
  else if n.type = syms.exec_stmt then {Feature.EXEC_STMT}
  else if n.type = syms.tfpdef then {Feature.AUTOMATIC_PARAMETER_UNPACKING}
  else if n.type = syms.except_clause then
    commaClauseFeats Feature.COMMA_STYLE_EXCEPT n.children
  else if n.type = syms.raise_stmt then
    commaClauseFeats Feature.COMMA_STYLE_RAISE n.children
  else if n.type = token.BACKQUOTE then {Feature.BACKQUOTE_REPR}
  else ∅

mutual

/-- Union of `nodeFeats` over the pre-order traversal `n.pre_order()` of a
subtree, threading each node's parent type (the root of the whole tree has
no parent). -/
def featsUnder : Option Nat → LN → Finset Feature
  | p, .leaf t v => nodeFeats p (.leaf t v)
  | p, .node t cs => nodeFeats p (.node t cs) ∪ featsList t cs

/-- Union of `featsUnder` over a list of children of a node of type `t`. -/
def featsList : Nat → List LN → Finset Feature
  | _, [] => ∅
  | t, c :: cs => featsUnder (some t) c ∪ featsList t cs

end

/-- `get_features_used` (lines 111-197): one pre-order walk collecting the
feature set. -/
def get_features_used (node : LN) : Finset Feature := featsUnder none node

/-- `black.mode.TargetVersion` (not under `src/`; the enum of supported
dialect versions). -/
inductive TargetVersion where
  | PY27 | PY33 | PY34 | PY35 | PY36 | PY37 | PY38 | PY39
deriving DecidableEq, Fintype

/-- Modelled from the spec: `VERSION_TO_FEATURES` from `black.mode` is not
under `src/`.  The spec fixes its shape — "an ordered set of named dialect
versions, each mapping to the maximal FeatureSet it supports", with the
legacy-only forms (print statement, exec statement, parameter unpacking,
comma-style except/raise, backquote repr, long/octal integer literals)
belonging only to the deprecated Python 2 dialect. -/
def VERSION_TO_FEATURES : TargetVersion → Finset Feature
  | .PY27 =>
    {Feature.UNICODE_LITERALS, Feature.ASYNC_IDENTIFIERS, Feature.PRINT_STMT,
     Feature.EXEC_STMT, Feature.AUTOMATIC_PARAMETER_UNPACKING,
     Feature.COMMA_STYLE_EXCEPT, Feature.COMMA_STYLE_RAISE,
     Feature.BACKQUOTE_REPR, Feature.LONG_INT_LITERAL, Feature.OCTAL_INT_LITERAL}
  | .PY33 => {Feature.UNICODE_LITERALS, Feature.ASYNC_IDENTIFIERS}
  | .PY34 => {Feature.UNICODE_LITERALS, Feature.ASYNC_IDENTIFIERS}
  | .PY35 => {Feature.UNICODE_LITERALS, Feature.ASYNC_IDENTIFIERS,
              Feature.TRAILING_COMMA_IN_CALL}
  | .PY36 => {Feature.UNICODE_LITERALS, Feature.ASYNC_IDENTIFIERS,
              Feature.F_STRINGS, Feature.NUMERIC_UNDERSCORES,
              Feature.TRAILING_COMMA_IN_CALL, Feature.TRAILING_COMMA_IN_DEF}
  | .PY37 => {Feature.UNICODE_LITERALS, Feature.F_STRINGS,
              Feature.NUMERIC_UNDERSCORES, Feature.TRAILING_COMMA_IN_CALL,
              Feature.TRAILING_COMMA_IN_DEF}
  | .PY38 => {Feature.UNICODE_LITERALS, Feature.F_STRINGS,
              Feature.NUMERIC_UNDERSCORES, Feature.TRAILING_COMMA_IN_CALL,
              Feature.TRAILING_COMMA_IN_DEF, Feature.POS_ONLY_ARGUMENTS,
              Feature.ASSIGNMENT_EXPRESSIONS}
  | .PY39 => {Feature.UNICODE_LITERALS, Feature.F_STRINGS,
              Feature.NUMERIC_UNDERSCORES, Feature.TRAILING_COMMA_IN_CALL,
              Feature.TRAILING_COMMA_IN_DEF, Feature.POS_ONLY_ARGUMENTS,
              Feature.ASSIGNMENT_EXPRESSIONS, Feature.RELAXED_DECORATORS}

/-- Modelled from the spec: the features "tagged as belonging only to a
deprecated dialect" — the Python 2 only constructs collected by the source
at lines 171-195 (plus the legacy integer-literal forms noted there). -/
def legacyOnlyFeatures : Finset Feature :=
  {Feature.PRINT_STMT, Feature.EXEC_STMT, Feature.AUTOMATIC_PARAMETER_UNPACKING,
   Feature.COMMA_STYLE_EXCEPT, Feature.COMMA_STYLE_RAISE, Feature.BACKQUOTE_REPR,
   Feature.LONG_INT_LITERAL, Feature.OCTAL_INT_LITERAL}

/-- `black.mode.Mode` (the fields the source slice reads). -/
structure Mode where
  target_versions : Finset TargetVersion
  line_length : Nat
  string_normalization : Bool
  is_pyi : Bool

/-- The default `black.Mode()`. -/
def defaultMode : Mode :=
  { target_versions := ∅
    line_length := 88
    string_normalization := true
    is_pyi := false }

/-- `detect_target_versions` (lines 200-203): all versions whose supported
feature set contains every feature used by the tree. -/
def detect_target_versions (node : LN) : Finset TargetVersion :=
  Finset.univ.filter (fun version => get_features_used node ⊆ VERSION_TO_FEATURES version)

/-- The version-resolution step of `format_str` (lines 62-65): a pinned
non-empty `mode.target_versions` is used as-is, otherwise the versions are
detected from the tree. -/
def resolvedVersions (mode : Mode) (node : LN) : Finset TargetVersion :=
  if mode.target_versions ≠ ∅ then mode.target_versions
  else detect_target_versions node

/-- The deprecation-notice condition of `format_str` (lines 67-70): the
panel is shown iff `PY27` was pinned or the resolved set is exactly
`{PY27}`. -/
def deprecationNoticeShown (mode : Mode) (node : LN) : Prop :=
  TargetVersion.PY27 ∈ mode.target_versions
  ∨ resolvedVersions mode node = {TargetVersion.PY27}

instance (mode : Mode) (node : LN) : Decidable (deprecationNoticeShown mode node) := by
  unfold deprecationNoticeShown; infer_instance

/-! ## Future imports (`get_future_imports`, lines 206-253)

Python exceptions (the `assert`s and the `children[...]` index errors on
malformed trees) are modelled by `Except Unit`; a `break` of the scanning
loop returns the imports collected so far. -/

mutual

/-- `get_imports_from_children` (lines 210-226): the names yielded from the
children of an `import_from` node after the `import` keyword, in order;
`.error` models the `AssertionError`/`IndexError` on invalid shapes.  The
source's generator loop is split into a per-child function plus the list
fold, preserving yield order and left-to-right error propagation. -/
def get_imports_from_children : List LN → Except Unit (List String)
  | [] => .ok []
  | c :: cs => do
    let a ← importsOfChild c
    let b ← get_imports_from_children cs
    .ok (a ++ b)

/-- One loop iteration of `get_imports_from_children` (lines 211-226): a
`NAME` leaf yields its value, other leaves yield nothing, an
`import_as_name` node yields its first child's name (asserting it is a
`NAME` leaf), an `import_as_names` node recurses, anything else raises. -/
def importsOfChild : LN → Except Unit (List String)
  | .leaf t v => if t = token.NAME then .ok [v] else .ok []
  | .node t cc =>
    if t = syms.import_as_name then
      match cc with
      | .leaf t0 v0 :: _ =>
        if t0 = token.NAME then .ok [v0] else .error ()
      | _ => .error ()
    else if t = syms.import_as_names then get_imports_from_children cc
    else .error ()

end

/-- The scanning loop of `get_future_imports` (lines 228-251) over the
module's top-level children. -/
def futureScan : List LN → Except Unit (Finset String)
  | [] => .ok ∅
  | child :: rest =>
    if child.type = syms.simple_stmt then
      match child.children with
      | [] => .error ()
      | first :: _ =>
        match first with
        | .leaf t _ =>
          if child.children.length = 2 ∧ t = token.STRING
              ∧ (child.children[1]?.map LN.type = some token.NEWLINE) then
            futureScan rest
          else .ok ∅
        | .node t cc =>
          if t = syms.import_from then
            match cc[1]? with
            | some (LN.leaf _ mv) =>
              if mv = "__future__" then do
                let names ← get_imports_from_children (cc.drop 3)
                let others ← futureScan rest
                .ok (names.toFinset ∪ others)
              else .ok ∅
            | some (LN.node _ _) => .ok ∅
            | none => .error ()
          else .ok ∅
    else .ok ∅

/-- `get_future_imports` (lines 206-253). -/
def get_future_imports (node : LN) : Except Unit (Finset String) :=
  futureScan node.children

/-! Claim-side characterisation of the scanning loop, written from the
spec's words: a leading run of statements that are either the module
docstring or `__future__` imports is scanned, and scanning stops at the
first statement that is neither. -/

/-- A module-docstring statement: a `simple_stmt` whose children are a
`STRING` leaf followed by a `NEWLINE` token. -/
def isDocstringStmt (c : LN) : Bool :=
  c.type == syms.simple_stmt &&
  match c.children with
  | [.leaf t1 _, s2] => t1 == token.STRING && s2.type == token.NEWLINE
  | _ => false

/-- A well-formed `__future__` import statement: a `simple_stmt` whose first
child is an `import_from` node naming the `__future__` pseudo-module, with
extractable imported names. -/
def isFutureImportStmt (c : LN) : Bool :=
  c.type == syms.simple_stmt &&
  match c.children with
  | .node t cc :: _ =>
    t == syms.import_from &&
    (match cc[1]? with
     | some (LN.leaf _ mv) =>
       mv == "__future__" && (get_imports_from_children (cc.drop 3)).isOk
     | _ => false)
  | _ => false

/-- A statement of the leading run: docstring or `__future__` import. -/
def qualifiesScan (c : LN) : Bool := isDocstringStmt c || isFutureImportStmt c

/-- A statement at which the scanning loop `break`s (rather than raising on
a malformed tree): not a `simple_stmt`, or a `simple_stmt` whose first child
is a non-docstring leaf, a non-import node, or an import of another
module. -/
def breaksScan (c : LN) : Bool :=
  !(c.type == syms.simple_stmt) ||
  match c.children with
  | [] => false
  | first :: _ =>
    match first with
    | .leaf _ _ => !(isDocstringStmt c)
    | .node t cc =>
      if t == syms.import_from then
        match cc[1]? with
        | some (LN.leaf _ mv) => !(mv == "__future__")
        | some (LN.node _ _) => true
        | none => false
      else true

/-- The names contributed by one statement of the leading run. -/
def namesOfStmt (c : LN) : Finset String :=
  if isFutureImportStmt c then
    match c.children with
    | .node _ cc :: _ =>
      match get_imports_from_children (cc.drop 3) with
      | .ok l => l.toFinset
      | .error _ => ∅
    | _ => ∅
  else ∅

/-- The set of future imports collected from a leading run of statements. -/
def collectedImports : List LN → Finset String
  | [] => ∅
  | c :: cs => namesOfStmt c ∪ collectedImports cs

/-! ## Occurrence of a `NUMBER` leaf in a tree -/

mutual

/-- The pre-order traversal of the tree visits a `NUMBER` leaf with literal
text `v`. -/
def hasNumLeaf (v : String) : LN → Bool
  | .leaf t w => t == token.NUMBER && w == v
  | .node _ cs => hasNumLeafList v cs

/-- List form of `hasNumLeaf` over children. -/
def hasNumLeafList (v : String) : List LN → Bool
  | [] => false
  | c :: cs => hasNumLeaf v c || hasNumLeafList v cs

end

/-! ## Lemmas about the feature detector -/

theorem nodeFeats_number (p : Option Nat) (v : String) :
    nodeFeats p (.leaf token.NUMBER v) = numberFeats v := by
  simp [nodeFeats, LN.type, LN.value, token.NUMBER, token.STRING]

mutual

theorem hasNumLeaf_sub (v : String) :
    ∀ (t : LN) (p : Option Nat), hasNumLeaf v t = true → numberFeats v ⊆ featsUnder p t
  | .leaf ty w, p, h => by
    have hw : ty = token.NUMBER ∧ w = v := by
      simpa [hasNumLeaf] using h
    rcases hw with ⟨h1, h2⟩
    subst h1; subst h2
    simp [featsUnder, nodeFeats_number]
  | .node ty cs, p, h => by
    have hl : hasNumLeafList v cs = true := by simpa [hasNumLeaf] using h
    have hs := hasNumLeafList_sub v cs ty hl
    exact hs.trans (by simp [featsUnder])

theorem hasNumLeafList_sub (v : String) :
    ∀ (cs : List LN) (t : Nat), hasNumLeafList v cs = true → numberFeats v ⊆ featsList t cs
  | c :: cs, t, h => by
    have h' : hasNumLeaf v c = true ∨ hasNumLeafList v cs = true := by
      simpa [hasNumLeafList] using h
    rcases h' with h' | h'
    · exact (hasNumLeaf_sub v c (some t) h').trans (by simp [featsList])
    · exact (hasNumLeafList_sub v cs t h').trans (by simp [featsList])

end

theorem octal_not_mem_stringFeats (v : String) :
    Feature.OCTAL_INT_LITERAL ∉ stringFeats v := by
  unfold stringFeats
  split <;> simp

theorem octal_numberFeats {v : String}
    (h : Feature.OCTAL_INT_LITERAL ∈ numberFeats v) :
    v.data.contains '_' = false
    ∧ v.data.head? = some '0'
    ∧ (∃ c1, v.data[1]? = some c1 ∧ c1.isDigit)
    ∧ ¬ v.data.all (fun c => c = '0') := by
  unfold numberFeats at h
  split at h
  · simp at h
  · rename_i hu
    split at h
    · simp at h
    · split at h
      · rename_i c0 c1 r heq
        split at h
        · rename_i hsh
          split at h
          · rename_i hall
            refine ⟨by simpa using hu, ?_, ?_, by simpa using hall⟩
            · rw [heq]
              simpa using hsh.1
            · refine ⟨c1, ?_, hsh.2⟩
              rw [heq]
              simp
          · simp at h
        · simp at h
      · simp at h

theorem octal_not_mem_slashFeats (p : Option Nat) :
    Feature.OCTAL_INT_LITERAL ∉ slashFeats p := by
  unfold slashFeats
  split <;> simp

theorem octal_not_mem_decoratorFeats (cs : List LN) :
    Feature.OCTAL_INT_LITERAL ∉ decoratorFeats cs := by
  unfold decoratorFeats
  split
  · split <;> simp
  · simp

theorem octal_not_mem_argStarFeats (b : Bool) (cs : List LN) :
    Feature.OCTAL_INT_LITERAL ∉ argStarFeats b cs := by
  unfold argStarFeats
  split
  · split
    · cases b <;> simp
    · simp
  · simp

theorem octal_not_mem_commaClauseFeats (f : Feature) (cs : List LN)
    (hf : f ≠ Feature.OCTAL_INT_LITERAL) :
    Feature.OCTAL_INT_LITERAL ∉ commaClauseFeats f cs := by
  unfold commaClauseFeats
  split
  · simp [Ne.symm hf]
  · simp

theorem octal_nodeFeats {p : Option Nat} {n : LN}
    (h : Feature.OCTAL_INT_LITERAL ∈ nodeFeats p n) :
    ∃ v, n = .leaf token.NUMBER v ∧ Feature.OCTAL_INT_LITERAL ∈ numberFeats v := by
  unfold nodeFeats at h
  by_cases h1 : n.type = token.STRING
  · rw [if_pos h1] at h
    exact absurd h (octal_not_mem_stringFeats _)
  rw [if_neg h1] at h
  by_cases h2 : n.type = token.NUMBER
  · rw [if_pos h2] at h
    rcases n with ⟨ty, w⟩ | ⟨ty, cs⟩
    · have hty : ty = token.NUMBER := h2
      subst hty
      exact ⟨w, rfl, by simpa [LN.value] using h⟩
    · exfalso
      have hz : numberFeats (LN.value (.node ty cs)) = ∅ := by
        simp [LN.value, numberFeats]
      rw [hz] at h
      simp at h
  rw [if_neg h2] at h
  by_cases h3 : n.type = token.SLASH
  · rw [if_pos h3] at h
    exact absurd h (octal_not_mem_slashFeats _)
  rw [if_neg h3] at h
  by_cases h4 : n.type = token.COLONEQUAL
  · rw [if_pos h4] at h
    simp at h
  rw [if_neg h4] at h
  by_cases h5 : n.type = syms.decorator
  · rw [if_pos h5] at h
    exact absurd h (octal_not_mem_decoratorFeats _)
  rw [if_neg h5] at h
  by_cases h6 : n.type = syms.typedargslist
  · rw [if_pos h6] at h
    exact absurd h (octal_not_mem_argStarFeats _ _)
  rw [if_neg h6] at h
  by_cases h7 : n.type = syms.arglist
  · rw [if_pos h7] at h
    exact absurd h (octal_not_mem_argStarFeats _ _)
  rw [if_neg h7] at h
  by_cases h8 : n.type = syms.print_stmt
  · rw [if_pos h8] at h
    simp at h
  rw [if_neg h8] at h
  by_cases h9 : n.type = syms.exec_stmt
  · rw [if_pos h9] at h
    simp at h
  rw [if_neg h9] at h
  by_cases h10 : n.type = syms.tfpdef
  · rw [if_pos h10] at h
    simp at h
  rw [if_neg h10] at h
  by_cases h11 : n.type = syms.except_clause
  · rw [if_pos h11] at h
    exact absurd h (octal_not_mem_commaClauseFeats _ _ (by simp))
  rw [if_neg h11] at h
  by_cases h12 : n.type = syms.raise_stmt
  · rw [if_pos h12] at h
    exact absurd h (octal_not_mem_commaClauseFeats _ _ (by simp))
  rw [if_neg h12] at h
  by_cases h13 : n.type = token.BACKQUOTE
  · rw [if_pos h13] at h
    simp at h
  rw [if_neg h13] at h
  simp at h

mutual

theorem octal_featsUnder :
    ∀ (p : Option Nat) (t : LN), Feature.OCTAL_INT_LITERAL ∈ featsUnder p t →
      ∃ v, hasNumLeaf v t = true ∧ Feature.OCTAL_INT_LITERAL ∈ numberFeats v
  | p, .leaf ty w, h => by
    have h' : Feature.OCTAL_INT_LITERAL ∈ nodeFeats p (.leaf ty w) := by
      simpa [featsUnder] using h
    rcases octal_nodeFeats h' with ⟨v, hv, hm⟩
    refine ⟨v, ?_, hm⟩
    cases hv
    simp [hasNumLeaf]
  | p, .node ty cs, h => by
    have h' : Feature.OCTAL_INT_LITERAL ∈ nodeFeats p (.node ty cs)
        ∨ Feature.OCTAL_INT_LITERAL ∈ featsList ty cs := by
      simpa [featsUnder] using h
    rcases h' with h' | h'
    · rcases octal_nodeFeats h' with ⟨v, hv, _⟩
      exact absurd hv (by simp)
    · rcases octal_featsList ty cs h' with ⟨v, hv, hm⟩
      exact ⟨v, by simpa [hasNumLeaf] using hv, hm⟩

theorem octal_featsList :
    ∀ (tn : Nat) (cs : List LN), Feature.OCTAL_INT_LITERAL ∈ featsList tn cs →
      ∃ v, hasNumLeafList v cs = true ∧ Feature.OCTAL_INT_LITERAL ∈ numberFeats v
  | tn, c :: cs, h => by
    have h' : Feature.OCTAL_INT_LITERAL ∈ featsUnder (some tn) c
        ∨ Feature.OCTAL_INT_LITERAL ∈ featsList tn cs := by
      simpa [featsList] using h
    rcases h' with h' | h'
    · rcases octal_featsUnder (some tn) c h' with ⟨v, hv, hm⟩
      exact ⟨v, by simp [hasNumLeafList, hv], hm⟩
    · rcases octal_featsList tn cs h' with ⟨v, hv, hm⟩
      exact ⟨v, by simp [hasNumLeafList, hv], hm⟩

end

/-- Claim-side notion for C4: a numeric literal written as a legacy octal
integer literal — a leading zero followed by further octal digits. -/
def isLegacyOctalLit (v : String) : Prop :=
  2 ≤ v.data.length ∧ v.data.head? = some '0'
  ∧ ∀ c ∈ v.data, c.isDigit = true ∧ c ≤ '7'

instance (v : String) : Decidable (isLegacyOctalLit v) := by
  unfold isLegacyOctalLit; infer_instance

theorem numberFeats_underscore {v : String} (h : v.data.contains '_' = true) :
    Feature.NUMERIC_UNDERSCORES ∈ numberFeats v := by
  unfold numberFeats
  rw [if_pos h]
  simp

theorem getLast?_mem_of_eq {α : Type} {l : List α} {a : α}
    (h : l.getLast? = some a) : a ∈ l := by
  have hx : a ∈ l.getLast? := by simp [Option.mem_def, h]
  obtain ⟨hne, heq⟩ := List.mem_getLast?_eq_getLast hx
  rw [heq]
  exact List.getLast_mem hne

theorem numberFeats_cons2 (v : String) (c0 c1 : Char) (r : List Char)
    (hv : v.data = c0 :: c1 :: r) :
    numberFeats v =
      if v.data.contains '_' then {Feature.NUMERIC_UNDERSCORES}
      else if v.data.getLast? = some 'L' ∨ v.data.getLast? = some 'l' then
        {Feature.LONG_INT_LITERAL}
      else if c0 = '0' ∧ c1.isDigit then
        if ¬ v.data.all (fun c => c = '0') then {Feature.OCTAL_INT_LITERAL}
        else ∅
      else ∅ := by
  unfold numberFeats
  rw [hv]

theorem numberFeats_octal {v : String} (hoct : isLegacyOctalLit v)
    (hnz : ∃ c ∈ v.data, c ≠ '0') :
    Feature.OCTAL_INT_LITERAL ∈ numberFeats v := by
  obtain ⟨hlen, hhead, hdig⟩ := hoct
  have hu : ¬ v.data.contains '_' = true := by
    intro hc
    have hmem : '_' ∈ v.data := by simpa using hc
    have := (hdig '_' hmem).1
    simp at this
  have hL : ¬ (v.data.getLast? = some 'L' ∨ v.data.getLast? = some 'l') := by
    rintro (hc | hc)
    · have := (hdig 'L' (getLast?_mem_of_eq hc)).1
      simp at this
    · have := (hdig 'l' (getLast?_mem_of_eq hc)).1
      simp at this
  have hall : ¬ v.data.all (fun c => c = '0') = true := by
    obtain ⟨c, hc, hne⟩ := hnz
    intro hcall
    have := List.all_eq_true.mp hcall c hc
    simp at this
    exact hne this
  rcases hv : v.data with _ | ⟨c0, _ | ⟨c1, r⟩⟩
  · rw [hv] at hlen; simp at hlen
  · rw [hv] at hlen; simp at hlen
  · have hc0 : c0 = '0' := by
      rw [hv] at hhead
      simpa using hhead
    have hc1 : c1.isDigit = true := (hdig c1 (by rw [hv]; simp)).1
    rw [numberFeats_cons2 v c0 c1 r hv, if_neg hu, if_neg hL,
      if_pos (show c0 = '0' ∧ c1.isDigit = true from ⟨hc0, hc1⟩), if_pos hall]
    simp

theorem legacy_not_elsewhere :
    ∀ f ∈ legacyOnlyFeatures, ∀ v : TargetVersion,
      v ≠ TargetVersion.PY27 → f ∉ VERSION_TO_FEATURES v := by decide

theorem py27_nonlegacy_py33 :
    ∀ f : Feature, f ∈ VERSION_TO_FEATURES TargetVersion.PY27 →
      f ∉ legacyOnlyFeatures → f ∈ VERSION_TO_FEATURES TargetVersion.PY33 := by decide

/-! ## Concrete example trees -/

/-- A module containing only the numeric literal `0123`. -/
def tree0123 : LN := .node 300 [.leaf token.NUMBER "0123"]

/-- A module containing only the numeric literal `10_000`. -/
def treeUnderscore : LN := .node 300 [.leaf token.NUMBER "10_000"]

/-- A module containing only the all-zeros numeric literal `0000`. -/
def treeZeros : LN := .node 300 [.leaf token.NUMBER "0000"]

/-- A module containing a Python 2 print statement and an f-string: its
feature set is compatible with no target version at all. -/
def mixedTree : LN :=
  .node 300 [.node syms.print_stmt [], .leaf token.STRING "f\"x\""]

/-- A module containing only a Python 2 print statement. -/
def printTree : LN := .node 300 [.node syms.print_stmt []]

/-! ## Claims C2, C3, C4, C10 -/

/-- C2: `format_str` uses the pinned target versions exactly when some are
pinned (regardless of the observed feature set, with no rejection), and
otherwise resolves to `detect_target_versions`, which holds exactly the
versions whose supported feature set (`VERSION_TO_FEATURES`) contains every
feature `get_features_used` observed in the tree. -/
theorem c2_version_resolution_policy :
    ∀ (mode : Mode) (node : LN) (v : TargetVersion),
      v ∈ resolvedVersions mode node ↔
        (if mode.target_versions = ∅
         then get_features_used node ⊆ VERSION_TO_FEATURES v
         else v ∈ mode.target_versions) := by
  intro mode node v
  unfold resolvedVersions detect_target_versions
  by_cases h : mode.target_versions = ∅
  · simp [h, Finset.mem_filter]
  · simp [h]

/-- C3 counterexample: the claim "whenever a legacy-only construct is
observed and no target profile was pinned, a deprecation notice is
surfaced" fails on a module mixing a print statement with an f-string: a
legacy-only feature is observed, nothing is pinned, and yet no notice is
shown because the detected version set is empty rather than `{PY27}`. -/
theorem c3_counterexample :
    defaultMode.target_versions = ∅
    ∧ (∃ f ∈ get_features_used mixedTree, f ∈ legacyOnlyFeatures)
    ∧ ¬ deprecationNoticeShown defaultMode mixedTree := by decide

/-- C3 (amended): with no target pinned, a deprecation notice is surfaced
whenever a legacy-only construct is observed and the observed feature set
is compatible with the deprecated `PY27` dialect; and no notice is surfaced
when no legacy-only construct is observed and no deprecated profile is
pinned. -/
theorem c3_deprecation_notice :
    ∀ (mode : Mode) (node : LN),
      (mode.target_versions = ∅ →
        (∃ f ∈ get_features_used node, f ∈ legacyOnlyFeatures) →
        get_features_used node ⊆ VERSION_TO_FEATURES TargetVersion.PY27 →
        deprecationNoticeShown mode node)
      ∧ ((∀ f ∈ get_features_used node, f ∉ legacyOnlyFeatures) →
        TargetVersion.PY27 ∉ mode.target_versions →
        ¬ deprecationNoticeShown mode node) := by
  intro mode node
  constructor
  · intro hempty hleg hsub
    refine Or.inr ?_
    unfold resolvedVersions
    rw [if_neg (by simp [hempty])]
    apply Finset.ext
    intro v
    simp only [detect_target_versions, Finset.mem_filter, Finset.mem_univ,
      true_and, Finset.mem_singleton]
    constructor
    · intro hv
      by_contra hne
      obtain ⟨f, hf, hfl⟩ := hleg
      exact legacy_not_elsewhere f hfl v hne (hv hf)
    · intro hv
      subst hv
      exact hsub
  · intro hnl hpin hdep
    rcases hdep with hdep | hdep
    · exact hpin hdep
    · unfold resolvedVersions at hdep
      by_cases hempty : mode.target_versions = ∅
      · rw [if_neg (by simp [hempty])] at hdep
        have h27 : TargetVersion.PY27 ∈ detect_target_versions node := by
          rw [hdep]; simp
        have hsub : get_features_used node ⊆ VERSION_TO_FEATURES TargetVersion.PY27 := by
          simpa [detect_target_versions, Finset.mem_filter] using h27
        have h33 : TargetVersion.PY33 ∈ detect_target_versions node := by
          simp only [detect_target_versions, Finset.mem_filter, Finset.mem_univ, true_and]
          intro f hf
          exact py27_nonlegacy_py33 f (hsub hf) (hnl f hf)
        rw [hdep] at h33
        simp at h33
      · rw [if_pos hempty] at hdep
        apply hpin
        rw [hdep]
        simp

/-- C3 witness: a module consisting of a bare print statement, formatted
with the default mode (nothing pinned), does surface the deprecation
notice. -/
theorem c3_witness : deprecationNoticeShown defaultMode printTree :=
  (c3_deprecation_notice defaultMode printTree).1 (by decide) (by decide) (by decide)

/-- C4 counterexample: `"0000"` is written as a legacy octal literal with a
leading zero followed by a digit and occurs as a `NUMBER` token, yet
`get_features_used` does not include the octal-literal tag. -/
theorem c4_counterexample :
    isLegacyOctalLit "0000" ∧ hasNumLeaf "0000" treeZeros = true
    ∧ Feature.OCTAL_INT_LITERAL ∉ get_features_used treeZeros := by decide

/-- C4 (amended): a `NUMBER` token containing an underscore contributes the
underscore-numeric-literal tag; a `NUMBER` token written as a legacy octal
literal that does not consist entirely of zeros contributes the legacy
octal-literal tag. -/
theorem c4_number_literal_features :
    ∀ (t : LN) (v : String), hasNumLeaf v t = true →
      (v.data.contains '_' = true → Feature.NUMERIC_UNDERSCORES ∈ get_features_used t)
      ∧ (isLegacyOctalLit v → (∃ c ∈ v.data, c ≠ '0') →
          Feature.OCTAL_INT_LITERAL ∈ get_features_used t) := by
  intro t v hocc
  have hsub := hasNumLeaf_sub v t none hocc
  exact ⟨fun hu => hsub (numberFeats_underscore hu),
         fun ho hnz => hsub (numberFeats_octal ho hnz)⟩

/-- C4 witness: `10_000` yields the underscore tag and `0123` yields the
octal tag, via the amended theorem at those concrete trees. -/
theorem c4_witness :
    Feature.NUMERIC_UNDERSCORES ∈ get_features_used treeUnderscore
    ∧ Feature.OCTAL_INT_LITERAL ∈ get_features_used tree0123 :=
  ⟨(c4_number_literal_features treeUnderscore "10_000" (by decide)).1 (by decide),
   (c4_number_literal_features tree0123 "0123" (by decide)).2 (by decide)
     ⟨'1', by decide, by decide⟩⟩

/-- C10: whenever the octal-literal tag is present, some `NUMBER` token of
the tree has a leading zero followed by a digit and is *not* made up
entirely of `'0'` characters — so an all-zeros literal such as `"0000"`
never causes the tag. -/
theorem c10_all_zero_octal_excluded :
    ∀ t : LN, Feature.OCTAL_INT_LITERAL ∈ get_features_used t →
      ∃ v, hasNumLeaf v t = true
        ∧ v.data.head? = some '0'
        ∧ (∃ c1, v.data[1]? = some c1 ∧ c1.isDigit = true)
        ∧ ¬ v.data.all (fun c => c = '0') := by
  intro t h
  obtain ⟨v, hv, hm⟩ := octal_featsUnder none t h
  obtain ⟨_, hh, hd, ha⟩ := octal_numberFeats hm
  exact ⟨v, hv, hh, hd, ha⟩

/-- C10 witness: applying the theorem to the module containing `0123`. -/
theorem c10_witness :
    ∃ v, hasNumLeaf v tree0123 = true
      ∧ v.data.head? = some '0'
      ∧ (∃ c1, v.data[1]? = some c1 ∧ c1.isDigit = true)
      ∧ ¬ v.data.all (fun c => c = '0') :=
  c10_all_zero_octal_excluded tree0123 (by decide)

/-! ## C5: the future-import scanning loop -/

theorem futureScan_leaf_first (t1 : Nat) (v1 : String) (tail rest : List LN) :
    futureScan (.node syms.simple_stmt (.leaf t1 v1 :: tail) :: rest) =
      if isDocstringStmt (.node syms.simple_stmt (.leaf t1 v1 :: tail)) then
        futureScan rest
      else .ok ∅ := by
  rcases tail with _ | ⟨s2, _ | ⟨s3, tail3⟩⟩ <;>
    simp [futureScan, isDocstringStmt, LN.type, LN.children]

theorem futureScan_break (c : LN) (rest : List LN) (h : breaksScan c = true) :
    futureScan (c :: rest) = .ok ∅ := by
  rcases c with ⟨t, v⟩ | ⟨t, cs⟩
  · by_cases hss : t = syms.simple_stmt
    · exfalso
      subst hss
      simp [breaksScan, LN.type, LN.children] at h
    · simp [futureScan, LN.type, hss]
  · by_cases hss : t = syms.simple_stmt
    · subst hss
      rcases cs with _ | ⟨first, tail⟩
      · exfalso
        simp [breaksScan, LN.type, LN.children] at h
      · rcases first with ⟨t1, v1⟩ | ⟨t2, cc⟩
        · have hdoc :
              isDocstringStmt (.node syms.simple_stmt (.leaf t1 v1 :: tail)) = false := by
            simpa [breaksScan, LN.type, LN.children] using h
          rw [futureScan_leaf_first, if_neg (by simp [hdoc])]
        · by_cases hif : t2 = syms.import_from
          · subst hif
            rcases hcc : cc[1]? with _ | (⟨tm, mv⟩ | ⟨tm, mcc⟩)
            · exfalso
              simp [breaksScan, LN.type, LN.children, hcc] at h
            · have hmv : ¬ mv = "__future__" := by
                simpa [breaksScan, LN.type, LN.children, hcc] using h
              simp [futureScan, LN.type, LN.children, hcc, hmv]
            · simp [futureScan, LN.type, LN.children, hcc]
          · simp [futureScan, LN.type, LN.children, hif]
    · simp [futureScan, LN.type, hss]

theorem docstring_shape {c : LN} (h : isDocstringStmt c = true) :
    ∃ t1 v1 tail, c = .node syms.simple_stmt (.leaf t1 v1 :: tail) := by
  rcases c with ⟨t, v⟩ | ⟨t, cs⟩
  · exfalso
    simp [isDocstringStmt, LN.children] at h
  · rcases cs with _ | ⟨first, tail⟩
    · exfalso
      simp [isDocstringStmt, LN.children] at h
    · rcases first with ⟨t1, v1⟩ | ⟨t2, cc⟩
      · have ht : t = syms.simple_stmt := by
          have := (Bool.and_eq_true _ _).mp h
          simpa [LN.type] using this.1
        exact ⟨t1, v1, tail, by rw [ht]⟩
      · exfalso
        have := (Bool.and_eq_true _ _).mp h
        simpa [LN.children] using this.2

theorem futureScan_doc (c : LN) (rest : List LN) (h : isDocstringStmt c = true) :
    futureScan (c :: rest) = futureScan rest := by
  obtain ⟨t1, v1, tail, rfl⟩ := docstring_shape h
  rw [futureScan_leaf_first, if_pos h]

theorem namesOfStmt_doc (c : LN) (h : isDocstringStmt c = true) :
    namesOfStmt c = ∅ := by
  obtain ⟨t1, v1, tail, rfl⟩ := docstring_shape h
  simp [namesOfStmt, isFutureImportStmt, LN.children]

theorem futureScan_import (c : LN) (rest : List LN)
    (h : isFutureImportStmt c = true) :
    futureScan (c :: rest) = (futureScan rest).map (fun s => namesOfStmt c ∪ s) := by
  rcases c with ⟨t, v⟩ | ⟨t, cs⟩
  · exfalso
    simp [isFutureImportStmt, LN.children] at h
  · rcases cs with _ | ⟨first, tail⟩
    · exfalso
      simp [isFutureImportStmt, LN.children] at h
    · rcases first with ⟨t1, v1⟩ | ⟨t2, cc⟩
      · exfalso
        simp [isFutureImportStmt, LN.children] at h
      · simp only [isFutureImportStmt, LN.type, LN.children, Bool.and_eq_true,
          beq_iff_eq] at h
        obtain ⟨hts, hif, hmatch⟩ := h
        subst hts
        subst hif
        rcases hcc : cc[1]? with _ | (⟨tm, mv⟩ | ⟨tm, mcc⟩)
        · rw [hcc] at hmatch
          simp at hmatch
        · rw [hcc] at hmatch
          simp only [Bool.and_eq_true, beq_iff_eq] at hmatch
          obtain ⟨hmv, hok⟩ := hmatch
          subst hmv
          obtain ⟨l, hl⟩ : ∃ l, get_imports_from_children (cc.drop 3) = .ok l := by
            rcases he : get_imports_from_children (cc.drop 3) with e | l
            · rw [he] at hok
              simp [Except.isOk, Except.toBool] at hok
            · exact ⟨l, rfl⟩
          have hnames : namesOfStmt (.node syms.simple_stmt (.node syms.import_from cc :: tail))
              = l.toFinset := by
            simp [namesOfStmt, isFutureImportStmt, LN.type, LN.children, hcc, hl,
              Except.isOk, Except.toBool]
          rw [hnames]
          simp only [futureScan, LN.type, LN.children, if_true]
          simp only [hcc, if_true]
          simp only [hl]
          rcases futureScan rest with e | s <;> simp [Except.map, bind, Except.bind]
        · rw [hcc] at hmatch
          simp at hmatch

/-- C5: `get_future_imports` collects exactly the names imported from
`__future__` over a leading run of docstring / future-import statements and
stops at the first statement that is neither, ignoring everything after
it. -/
theorem c5_future_imports :
    ∀ (tp : Nat) (pre : List LN) (c : LN) (rest : List LN),
      (∀ x ∈ pre, qualifiesScan x = true) → breaksScan c = true →
      get_future_imports (.node tp (pre ++ c :: rest)) = .ok (collectedImports pre) := by
  intro tp pre c rest hq hb
  have key : futureScan (pre ++ c :: rest) = .ok (collectedImports pre) := by
    induction pre with
    | nil => simpa [collectedImports] using futureScan_break c rest hb
    | cons x pre ih =>
      have hx := hq x (by simp)
      have hrest : ∀ y ∈ pre, qualifiesScan y = true := fun y hy => hq y (by simp [hy])
      have hx' : isDocstringStmt x = true ∨ isFutureImportStmt x = true := by
        simpa [qualifiesScan] using hx
      rcases hx' with hdoc | himp
      · rw [List.cons_append, futureScan_doc x _ hdoc, ih hrest]
        simp [collectedImports, namesOfStmt_doc x hdoc]
      · rw [List.cons_append, futureScan_import x _ himp, ih hrest]
        simp [collectedImports, Except.map]
  simpa [get_future_imports, LN.children] using key

/-- A module docstring statement. -/
def docStmt : LN :=
  .node syms.simple_stmt [.leaf token.STRING "\"docstring\"", .leaf token.NEWLINE "\n"]

/-- `from __future__ import annotations`. -/
def futureImportStmt : LN :=
  .node syms.simple_stmt
    [.node syms.import_from
      [.leaf token.NAME "from", .leaf token.NAME "__future__",
       .leaf token.NAME "import", .leaf token.NAME "annotations"],
     .leaf token.NEWLINE "\n"]

/-- A following ordinary statement (`x`). -/
def otherStmt : LN :=
  .node syms.simple_stmt [.leaf token.NAME "x", .leaf token.NEWLINE "\n"]

/-- The scenario module: docstring, future import, then another statement. -/
def scenarioModule : LN := .node 300 [docStmt, futureImportStmt, otherStmt]

/-- C5 witness: the spec's scenario — docstring, then
`from __future__ import annotations`, then an ordinary statement — yields
exactly `{"annotations"}`. -/
theorem c5_witness : get_future_imports scenarioModule = .ok {"annotations"} := by
  have h := c5_future_imports 300 [docStmt, futureImportStmt] otherStmt []
    (by decide) (by decide)
  have h2 : collectedImports [docStmt, futureImportStmt] = {"annotations"} := by decide
  rw [h2] at h
  exact h

/-! ## The formatting pipeline of `format_str`

`format_str` (lines 29-91) parses the lstripped source with the permissive
grammar (`lib2to3_parse`, line 59) and regenerates text from the tree.  The
parser and line generator live outside `src/` (`black.parsing`,
`black.linegen`); they are modelled from the spec below for a small
statement language (`def` statements with annotated/defaulted parameters
and atomic expression statements) that includes the spec's scenario
inputs: a whitespace-insensitive permissive tokenizer, a parser to an
abstract module, and a deterministic renderer applying the spec's spacing,
quote-normalization, width-budget and blank-line rules. -/

/-- Python's `str.lstrip()` whitespace (source line 59). -/
def pyWs (c : Char) : Bool :=
  c = ' ' || c = '\t' || c = '\n' || c = '\r' || c = '\x0b' || c = '\x0c'

/-- `src_contents.lstrip()` from line 59 of the source. -/
def pyLstrip (s : String) : String := ⟨s.data.dropWhile pyWs⟩

/-- A line/column position (1-based line, 0-based column), as carried by the
`SyntaxError` of the parser (spec §6, §7). -/
structure Pos where
  line : Nat
  col : Nat
deriving DecidableEq

/-- Modelled from the spec: the `SyntaxError` raised on input that does not
parse "includes line/column" (spec §6). -/
structure SyntaxErr where
  line : Nat
  col : Nat
deriving DecidableEq

deriving instance DecidableEq for Except

def advancePos (p : Pos) (c : Char) : Pos :=
  if c = '\n' then ⟨p.line + 1, 0⟩ else ⟨p.line, p.col + 1⟩

/-- Tokens of the modelled permissive grammar. -/
inductive Tok where
  | kwDef
  | ident (s : String)
  | number (s : String)
  | strTok (dq : Bool) (content : String)
  | lpar
  | rpar
  | colon
  | comma
  | eq
  | arrow
  | ellipsisT
  | nl
deriving DecidableEq

/-- In-progress token of the tokenizer state machine. -/
inductive Pend where
  | none
  | word (acc : List Char)
  | num (acc : List Char)
  | str (dq : Bool) (acc : List Char)
  | dash
  | dot1
  | dot2
deriving DecidableEq

/-- Tokenizer state: bracket depth (newlines inside brackets are implicit
line joins, spec §4.1's permissive grammar), current position, pending
token, emitted tokens. -/
structure TkSt where
  depth : Nat
  pos : Pos
  pend : Pend
  out : List Tok
deriving DecidableEq

def quoteOf (dq : Bool) : Char := if dq then '"' else '\''

/-- Characters allowed inside a modelled string literal (no quotes, no
escapes, no line breaks). -/
def plainStrChar (c : Char) : Bool :=
  !(c = '\'' || c = '"' || c = '\\' || c = '\n' || c = '\r')

def wordTok (w : List Char) : Tok :=
  if (⟨w⟩ : String) = "def" then .kwDef else .ident ⟨w⟩

/-- One tokenizer transition from a state with no pending token. -/
def stepNone (st : TkSt) (c : Char) : Except SyntaxErr TkSt :=
  if c = ' ' || c = '\t' then .ok st
  else if c = '\n' then
    if st.depth = 0 then .ok { st with out := st.out ++ [Tok.nl] }
    else .ok st
  else if c = '(' then .ok { st with depth := st.depth + 1, out := st.out ++ [Tok.lpar] }
  else if c = ')' then .ok { st with depth := st.depth - 1, out := st.out ++ [Tok.rpar] }
  else if c = ':' then .ok { st with out := st.out ++ [Tok.colon] }
  else if c = ',' then .ok { st with out := st.out ++ [Tok.comma] }
  else if c = '=' then .ok { st with out := st.out ++ [Tok.eq] }
  else if c = '-' then .ok { st with pend := .dash }
  else if c = '.' then .ok { st with pend := .dot1 }
  else if c = '\'' then .ok { st with pend := .str false [] }
  else if c = '"' then .ok { st with pend := .str true [] }
  else if c.isAlpha then .ok { st with pend := .word [c] }
  else if c.isDigit then .ok { st with pend := .num [c] }
  else .error ⟨st.pos.line, st.pos.col⟩

/-- One tokenizer transition; the position always advances by the consumed
character. -/
def step (st : TkSt) (c : Char) : Except SyntaxErr TkSt :=
  (match st.pend with
   | .none => stepNone st c
   | .word acc =>
     if c.isAlpha then .ok { st with pend := .word (acc ++ [c]) }
     else stepNone { st with pend := .none, out := st.out ++ [wordTok acc] } c
   | .num acc =>
     if c.isDigit then .ok { st with pend := .num (acc ++ [c]) }
     else stepNone { st with pend := .none, out := st.out ++ [Tok.number ⟨acc⟩] } c
   | .str dq acc =>
     if c = quoteOf dq then
       .ok { st with pend := .none, out := st.out ++ [Tok.strTok dq ⟨acc⟩] }
     else if plainStrChar c then .ok { st with pend := .str dq (acc ++ [c]) }
     else .error ⟨st.pos.line, st.pos.col⟩
   | .dash =>
     if c = '>' then .ok { st with pend := .none, out := st.out ++ [Tok.arrow] }
     else .error ⟨st.pos.line, st.pos.col⟩
   | .dot1 =>
     if c = '.' then .ok { st with pend := .dot2 }
     else .error ⟨st.pos.line, st.pos.col⟩
   | .dot2 =>
     if c = '.' then .ok { st with pend := .none, out := st.out ++ [Tok.ellipsisT] }
     else .error ⟨st.pos.line, st.pos.col⟩
  ).map (fun s : TkSt => { s with pos := advancePos st.pos c })

/-- Flush the pending token at end of input. -/
def finishTk (st : TkSt) : Except SyntaxErr (List Tok) :=
  match st.pend with
  | .none => .ok st.out
  | .word acc => .ok (st.out ++ [wordTok acc])
  | .num acc => .ok (st.out ++ [Tok.number ⟨acc⟩])
  | _ => .error ⟨st.pos.line, st.pos.col⟩

/-- Run the tokenizer from a given state. -/
def tkFrom (st : TkSt) (l : List Char) : Except SyntaxErr (List Tok) := do
  let st' ← List.foldlM step st l
  finishTk st'

def initSt : TkSt := ⟨0, ⟨1, 0⟩, .none, []⟩

/-- Modelled from the spec: the tokenization stage of the permissive
grammar parse (`blib2to3`, not under `src/`), with error positions. -/
def tokenize (l : List Char) : Except SyntaxErr (List Tok) := tkFrom initSt l

/-! ### Abstract syntax of the modelled statement language -/

inductive Expr where
  | nameE (s : String)
  | numE (s : String)
  | strE (dq : Bool) (content : String)
  | ellipsisE
deriving DecidableEq

structure Param where
  pname : String
  annot : Option Expr
  dflt : Option Expr
deriving DecidableEq

inductive Stmt where
  | defStmt (fname : String) (params : List Param) (ret : Option Expr) (body : Expr)
  | exprStmt (e : Expr)
deriving DecidableEq

/-! ### Parser over tokens (fuelled, so that the kernel can evaluate it) -/

def parseExpr : List Tok → Option (Expr × List Tok)
  | Tok.ident s :: r => some (.nameE s, r)
  | Tok.number s :: r => some (.numE s, r)
  | Tok.strTok dq c :: r => some (.strE dq c, r)
  | Tok.ellipsisT :: r => some (.ellipsisE, r)
  | _ => none

def parseParam : List Tok → Option (Param × List Tok)
  | Tok.ident s :: r =>
    match r with
    | Tok.colon :: r2 =>
      match parseExpr r2 with
      | some (a, r3) =>
        match r3 with
        | Tok.eq :: r4 =>
          match parseExpr r4 with
          | some (d, r5) => some (⟨s, some a, some d⟩, r5)
          | none => none
        | _ => some (⟨s, some a, none⟩, r3)
      | none => none
    | Tok.eq :: r2 =>
      match parseExpr r2 with
      | some (d, r3) => some (⟨s, none, some d⟩, r3)
      | none => none
    | _ => some (⟨s, none, none⟩, r)
  | _ => none

/-- Parameter list up to and including the closing parenthesis; accepts an
optional trailing comma (the permissive grammar). -/
def parseParams : Nat → List Tok → Option (List Param × List Tok)
  | _, Tok.rpar :: r => some ([], r)
  | fuel + 1, ts =>
    match parseParam ts with
    | some (p, r) =>
      match r with
      | Tok.comma :: r2 =>
        (match r2 with
         | Tok.rpar :: r3 => some ([p], r3)
         | _ =>
           match parseParams fuel r2 with
           | some (ps, r') => some (p :: ps, r')
           | none => none)
      | Tok.rpar :: r2 => some ([p], r2)
      | _ => none
    | none => none
  | 0, _ => none

/-- The `: body` tail of a `def` statement (inline body or body on the
following line). -/
def parseDefTail (f : String) (ps : List Param) (ret : Option Expr) :
    List Tok → Option (Stmt × List Tok)
  | Tok.colon :: r =>
    match r with
    | Tok.nl :: r2 =>
      match parseExpr r2 with
      | some (b, r3) =>
        match r3 with
        | Tok.nl :: r4 => some (.defStmt f ps ret b, r4)
        | [] => some (.defStmt f ps ret b, [])
        | _ => none
      | none => none
    | _ =>
      match parseExpr r with
      | some (b, r2) =>
        match r2 with
        | Tok.nl :: r3 => some (.defStmt f ps ret b, r3)
        | [] => some (.defStmt f ps ret b, [])
        | _ => none
      | none => none
  | _ => none

def parseStmt (fuel : Nat) : List Tok → Option (Stmt × List Tok)
  | Tok.kwDef :: Tok.ident f :: Tok.lpar :: r =>
    match parseParams fuel r with
    | some (ps, r2) =>
      match r2 with
      | Tok.arrow :: ra =>
        match parseExpr ra with
        | some (ret, rb) => parseDefTail f ps (some ret) rb
        | none => none
      | _ => parseDefTail f ps none r2
    | none => none
  | ts =>
    match parseExpr ts with
    | some (e, r) =>
      match r with
      | Tok.nl :: r2 => some (.exprStmt e, r2)
      | [] => some (.exprStmt e, [])
      | _ => none
    | none => none

def parseModuleAux : Nat → List Tok → Option (List Stmt)
  | _, [] => some []
  | fuel + 1, Tok.nl :: r => parseModuleAux fuel r
  | fuel + 1, ts =>
    match parseStmt fuel ts with
    | some (s, r) =>
      match parseModuleAux fuel r with
      | some ms => some (s :: ms)
      | none => none
    | none => none
  | 0, _ => none

def parseModule (ts : List Tok) : Option (List Stmt) :=
  parseModuleAux (ts.length + 1) ts

/-! ### Well-formedness (exactly the shapes the tokenizer can produce;
checked after parsing, mirroring that `lib2to3_parse` only yields trees
whose leaf texts re-tokenize to themselves) -/

def wfName (s : String) : Bool :=
  !s.data.isEmpty && s.data.all Char.isAlpha && !(s == "def")

def wfExpr : Expr → Bool
  | .nameE s => wfName s
  | .numE s => !s.data.isEmpty && s.data.all Char.isDigit
  | .strE _ c => c.data.all plainStrChar
  | .ellipsisE => true

def wfParam (p : Param) : Bool :=
  wfName p.pname && p.annot.all wfExpr && p.dflt.all wfExpr

def wfStmt : Stmt → Bool
  | .defStmt f ps ret b => wfName f && ps.all wfParam && ret.all wfExpr && wfExpr b
  | .exprStmt e => wfExpr e

def wfModule (ms : List Stmt) : Bool := ms.all wfStmt

/-! ### Renderer (spec §4.4-§4.7): spacing hints, quote normalization,
width budget with parameter explosion, blank-line policy, indentation -/

/-- Quote normalization (spec: Configuration's string-literal quote
normalization): normalized strings use double quotes. -/
def normQuote (mode : Mode) (dq : Bool) : Bool :=
  if mode.string_normalization then true else dq

def renderExpr (mode : Mode) : Expr → List Char
  | .nameE s => s.data
  | .numE s => s.data
  | .strE dq c => quoteOf (normQuote mode dq) :: c.data ++ [quoteOf (normQuote mode dq)]
  | .ellipsisE => ['.', '.', '.']

def exprTok (mode : Mode) : Expr → Tok
  | .nameE s => .ident s
  | .numE s => .number s
  | .strE dq c => .strTok (normQuote mode dq) c
  | .ellipsisE => .ellipsisT

def canonExpr (mode : Mode) : Expr → Expr
  | .strE dq c => .strE (normQuote mode dq) c
  | e => e

/-- Spacing around a parameter (spec §4.4): `name: annot = dflt` with an
annotation, `name=dflt` without one. -/
def renderParam (mode : Mode) (p : Param) : List Char :=
  p.pname.data
  ++ (match p.annot with
      | some a => ':' :: ' ' :: renderExpr mode a
      | none => [])
  ++ (match p.annot, p.dflt with
      | some _, some d => ' ' :: '=' :: ' ' :: renderExpr mode d
      | none, some d => '=' :: renderExpr mode d
      | _, none => [])

def paramToks (mode : Mode) (p : Param) : List Tok :=
  Tok.ident p.pname
    :: (match p.annot with
        | some a => [Tok.colon, exprTok mode a]
        | none => [])
    ++ (match p.dflt with
        | some d => [Tok.eq, exprTok mode d]
        | none => [])

def canonParam (mode : Mode) (p : Param) : Param :=
  ⟨p.pname, p.annot.map (canonExpr mode), p.dflt.map (canonExpr mode)⟩

def renderParamsFlat (mode : Mode) : List Param → List Char
  | [] => []
  | [p] => renderParam mode p
  | p :: ps => renderParam mode p ++ ',' :: ' ' :: renderParamsFlat mode ps

def paramsToksCore (mode : Mode) : List Param → List Tok
  | [] => []
  | [p] => paramToks mode p
  | p :: ps => paramToks mode p ++ Tok.comma :: paramsToksCore mode ps

def renderRet (mode : Mode) : Option Expr → List Char
  | some e => ' ' :: '-' :: '>' :: ' ' :: renderExpr mode e
  | none => []

def retToks (mode : Mode) : Option Expr → List Tok
  | some e => [Tok.arrow, exprTok mode e]
  | none => []

def defHeaderFlat (mode : Mode) (f : String) (ps : List Param)
    (ret : Option Expr) : List Char :=
  'd' :: 'e' :: 'f' :: ' ' :: f.data ++ '(' :: renderParamsFlat mode ps ++ [')']
  ++ renderRet mode ret ++ [':']

/-- One parameter per line, indented, each with a trailing comma
(spec §4.6 transform 4). -/
def renderParamsExploded (mode : Mode) : List Param → List Char
  | [] => []
  | p :: ps =>
    ' ' :: ' ' :: ' ' :: ' ' :: renderParam mode p ++ ',' :: '\n'
      :: renderParamsExploded mode ps

def defHeaderExploded (mode : Mode) (f : String) (ps : List Param)
    (ret : Option Expr) : List Char :=
  'd' :: 'e' :: 'f' :: ' ' :: f.data ++ '(' :: '\n' :: renderParamsExploded mode ps
  ++ ')' :: renderRet mode ret ++ [':']

/-- Explosion decision (spec §4.6): explode the parameter list iff the flat
header exceeds the width budget and there is something to explode. -/
def explodeDef (mode : Mode) (f : String) (ps : List Param)
    (ret : Option Expr) : Bool :=
  decide (mode.line_length < (defHeaderFlat mode f ps ret).length) && !ps.isEmpty

def renderStmt (mode : Mode) : Stmt → List Char
  | .defStmt f ps ret body =>
    (if explodeDef mode f ps ret then defHeaderExploded mode f ps ret
     else defHeaderFlat mode f ps ret)
    ++ '\n' :: ' ' :: ' ' :: ' ' :: ' ' :: renderExpr mode body ++ ['\n']
  | .exprStmt e => renderExpr mode e ++ ['\n']

def stmtToks (mode : Mode) : Stmt → List Tok
  | .defStmt f ps ret body =>
    Tok.kwDef :: Tok.ident f :: Tok.lpar
      :: (paramsToksCore mode ps
          ++ (if explodeDef mode f ps ret then [Tok.comma] else []))
      ++ Tok.rpar :: retToks mode ret
      ++ Tok.colon :: Tok.nl :: exprTok mode body :: [Tok.nl]
  | .exprStmt e => [exprTok mode e, Tok.nl]

def canonStmt (mode : Mode) : Stmt → Stmt
  | .defStmt f ps ret b =>
    .defStmt f (ps.map (canonParam mode)) (ret.map (canonExpr mode)) (canonExpr mode b)
  | .exprStmt e => .exprStmt (canonExpr mode e)

def canonModule (mode : Mode) (ms : List Stmt) : List Stmt :=
  ms.map (canonStmt mode)

def Stmt.isDef : Stmt → Bool
  | .defStmt _ _ _ _ => true
  | .exprStmt _ => false

/-- Blank lines between two adjacent top-level statements (spec §4.5): two
around top-level definitions, none in stub (`is_pyi`) mode. -/
def blankSep (mode : Mode) (a b : Stmt) : Nat :=
  if mode.is_pyi then 0
  else if a.isDef || b.isDef then 2 else 0

def renderModule (mode : Mode) : List Stmt → List Char
  | [] => []
  | [s] => renderStmt mode s
  | s :: s2 :: ms =>
    renderStmt mode s ++ List.replicate (blankSep mode s s2) '\n'
    ++ renderModule mode (s2 :: ms)

def moduleToks (mode : Mode) : List Stmt → List Tok
  | [] => []
  | [s] => stmtToks mode s
  | s :: s2 :: ms =>
    stmtToks mode s ++ List.replicate (blankSep mode s s2) Tok.nl
    ++ moduleToks mode (s2 :: ms)

/-! ### The public entry point -/

/-- Modelled from the spec: the permissive parse of the (already lstripped)
source — tokenization plus module parse plus the well-formedness check that
`lib2to3_parse` guarantees by construction. -/
def parseSource (src : String) : Option (List Stmt) :=
  match tokenize src.data with
  | .error _ => none
  | .ok ts =>
    match parseModule ts with
    | some ms => if wfModule ms then some ms else none
    | none => none

/-- Position just past the end of the source (used for parse errors not
located at a single character). -/
def endErr (src : String) : SyntaxErr :=
  let p := src.data.foldl advancePos ⟨1, 0⟩
  ⟨p.line, p.col⟩

/-- Modelled from the spec: `format_str` (lines 29-91) — lstrip the input
(line 59), parse it with the permissive grammar or fail with a positioned
`SyntaxError`, then regenerate the text from the tree through the line
generator, blank-line policy, splitter and renderer. -/
def format_str (src : String) (mode : Mode) : Except SyntaxErr String :=
  let stripped := pyLstrip src
  match tokenize stripped.data with
  | .error e => .error e
  | .ok ts =>
    match parseModule ts with
    | none => .error (endErr stripped)
    | some ms =>
      if wfModule ms then .ok ⟨renderModule mode ms⟩
      else .error (endErr stripped)

/-! ### Tokenizer fragment lemmas: running the state machine over a rendered
fragment appends the fragment's tokens -/

theorem tkFrom_nil (st : TkSt) : tkFrom st [] = finishTk st := by
  simp [tkFrom]

theorem tkFrom_cons (st : TkSt) (c : Char) (l : List Char) :
    tkFrom st (c :: l) = step st c >>= fun st' => tkFrom st' l := by
  rcases h : step st c with e | st'
  · simp [tkFrom, List.foldlM_cons, h, Except.bind]
  · simp [tkFrom, List.foldlM_cons, h, Except.bind]

theorem tk_ws (d : Nat) (p : Pos) (o : List Tok) (c : Char)
    (hc : c = ' ' ∨ c = '\t') (l : List Char) :
    tkFrom ⟨d, p, .none, o⟩ (c :: l) = tkFrom ⟨d, advancePos p c, .none, o⟩ l := by
  rcases hc with rfl | rfl <;>
    simp [tkFrom_cons, step, stepNone, Except.map, Except.bind, bind]

theorem digit_not_alpha {c : Char} (h : c.isDigit = true) : c.isAlpha = false := by
  simp only [Char.isDigit, Char.isAlpha, Char.isUpper, Char.isLower, Bool.and_eq_true,
    Bool.or_eq_false_iff, Bool.and_eq_false_iff, decide_eq_true_eq, decide_eq_false_iff_not,
    ge_iff_le, UInt32.le_def, BitVec.le_def,
    show ((48 : UInt32).toBitVec).toNat = 48 from rfl,
    show ((57 : UInt32).toBitVec).toNat = 57 from rfl,
    show ((65 : UInt32).toBitVec).toNat = 65 from rfl,
    show ((90 : UInt32).toBitVec).toNat = 90 from rfl,
    show ((97 : UInt32).toBitVec).toNat = 97 from rfl,
    show ((122 : UInt32).toBitVec).toNat = 122 from rfl] at *
  omega

theorem tk_nl0 (p : Pos) (o : List Tok) (l : List Char) :
    tkFrom ⟨0, p, .none, o⟩ ('\n' :: l)
      = tkFrom ⟨0, advancePos p '\n', .none, o ++ [Tok.nl]⟩ l := by
  simp [tkFrom_cons, step, stepNone, Except.map, Except.bind, bind]

theorem tk_nl_pos (d : Nat) (hd : d ≠ 0) (p : Pos) (o : List Tok) (l : List Char) :
    tkFrom ⟨d, p, .none, o⟩ ('\n' :: l)
      = tkFrom ⟨d, advancePos p '\n', .none, o⟩ l := by
  simp [tkFrom_cons, step, stepNone, Except.map, Except.bind, bind, hd]

theorem tk_lpar (d : Nat) (p : Pos) (o : List Tok) (l : List Char) :
    tkFrom ⟨d, p, .none, o⟩ ('(' :: l)
      = tkFrom ⟨d + 1, advancePos p '(', .none, o ++ [Tok.lpar]⟩ l := by
  simp [tkFrom_cons, step, stepNone, Except.map, Except.bind, bind]

theorem tk_rpar (d : Nat) (p : Pos) (o : List Tok) (l : List Char) :
    tkFrom ⟨d, p, .none, o⟩ (')' :: l)
      = tkFrom ⟨d - 1, advancePos p ')', .none, o ++ [Tok.rpar]⟩ l := by
  simp [tkFrom_cons, step, stepNone, Except.map, Except.bind, bind]

theorem tk_colon (d : Nat) (p : Pos) (o : List Tok) (l : List Char) :
    tkFrom ⟨d, p, .none, o⟩ (':' :: l)
      = tkFrom ⟨d, advancePos p ':', .none, o ++ [Tok.colon]⟩ l := by
  simp [tkFrom_cons, step, stepNone, Except.map, Except.bind, bind]

theorem tk_comma (d : Nat) (p : Pos) (o : List Tok) (l : List Char) :
    tkFrom ⟨d, p, .none, o⟩ (',' :: l)
      = tkFrom ⟨d, advancePos p ',', .none, o ++ [Tok.comma]⟩ l := by
  simp [tkFrom_cons, step, stepNone, Except.map, Except.bind, bind]

theorem tk_eq (d : Nat) (p : Pos) (o : List Tok) (l : List Char) :
    tkFrom ⟨d, p, .none, o⟩ ('=' :: l)
      = tkFrom ⟨d, advancePos p '=', .none, o ++ [Tok.eq]⟩ l := by
  simp [tkFrom_cons, step, stepNone, Except.map, Except.bind, bind]

theorem tk_arrow (d : Nat) (p : Pos) (o : List Tok) (l : List Char) :
    tkFrom ⟨d, p, .none, o⟩ ('-' :: '>' :: l)
      = tkFrom ⟨d, advancePos (advancePos p '-') '>', .none, o ++ [Tok.arrow]⟩ l := by
  simp [tkFrom_cons, step, stepNone, Except.map, Except.bind, bind]

theorem tk_ellipsis (d : Nat) (p : Pos) (o : List Tok) (l : List Char) :
    tkFrom ⟨d, p, .none, o⟩ ('.' :: '.' :: '.' :: l)
      = tkFrom ⟨d, advancePos (advancePos (advancePos p '.') '.') '.', .none,
          o ++ [Tok.ellipsisT]⟩ l := by
  simp [tkFrom_cons, step, stepNone, Except.map, Except.bind, bind]

theorem ok_bind {ε α β : Type} (x : α) (k : α → Except ε β) :
    (Except.ok x >>= k : Except ε β) = k x := rfl

theorem plain_ne_quote {c : Char} (h : plainStrChar c = true) (b : Bool) :
    ¬ c = quoteOf b := by
  cases b <;> simp [plainStrChar, quoteOf] at * <;> tauto

theorem tk_str_aux (b : Bool) :
    ∀ (content : List Char), content.all plainStrChar = true →
      ∀ (d : Nat) (p : Pos) (acc : List Char) (o : List Tok) (l : List Char),
        tkFrom ⟨d, p, .str b acc, o⟩ (content ++ quoteOf b :: l)
          = tkFrom ⟨d, (content ++ [quoteOf b]).foldl advancePos p, .none,
              o ++ [Tok.strTok b ⟨acc ++ content⟩]⟩ l := by
  intro content
  induction content with
  | nil =>
    intro _ d p acc o l
    simp [tkFrom_cons, step, Except.map, Except.bind, bind]
  | cons c cs ih =>
    intro hall d p acc o l
    have hc : plainStrChar c = true := by
      have := List.all_eq_true.mp hall c (by simp)
      simpa using this
    have hcs : cs.all plainStrChar = true := by
      apply List.all_eq_true.mpr
      intro x hx
      exact List.all_eq_true.mp hall x (by simp [hx])
    rw [List.cons_append, tkFrom_cons]
    have hne : ¬ c = quoteOf b := plain_ne_quote hc b
    simp only [step, hne, hc, if_true, if_false, ite_false, ite_true, Except.map,
      Except.bind, bind]
    rw [ih hcs d (advancePos p c) (acc ++ [c]) o l]
    simp [List.foldl_cons]

theorem tk_str (b : Bool) (content : List Char) (h : content.all plainStrChar = true)
    (d : Nat) (p : Pos) (o : List Tok) (l : List Char) :
    tkFrom ⟨d, p, .none, o⟩ (quoteOf b :: content ++ quoteOf b :: l)
      = tkFrom ⟨d, (quoteOf b :: content ++ [quoteOf b]).foldl advancePos p, .none,
          o ++ [Tok.strTok b ⟨content⟩]⟩ l := by
  have hstep : step ⟨d, p, .none, o⟩ (quoteOf b)
      = .ok ⟨d, advancePos p (quoteOf b), .str b [], o⟩ := by
    cases b <;> simp [quoteOf, step, stepNone, Except.map]
  rw [List.cons_append, tkFrom_cons, hstep, ok_bind, tk_str_aux b content h]
  simp

def headNotAlpha (l : List Char) : Bool := l.head?.all (fun c => !c.isAlpha)

def headNotDigit (l : List Char) : Bool := l.head?.all (fun c => !c.isDigit)

theorem tk_word_aux :
    ∀ (w : List Char), w.all Char.isAlpha = true →
      ∀ (d : Nat) (p : Pos) (acc : List Char) (o : List Tok) (l : List Char),
        tkFrom ⟨d, p, .word acc, o⟩ (w ++ l)
          = tkFrom ⟨d, w.foldl advancePos p, .word (acc ++ w), o⟩ l := by
  intro w
  induction w with
  | nil => intro _ d p acc o l; simp
  | cons c cs ih =>
    intro hall d p acc o l
    have hc : c.isAlpha = true := by
      have := List.all_eq_true.mp hall c (by simp)
      simpa using this
    have hcs : cs.all Char.isAlpha = true := by
      apply List.all_eq_true.mpr
      intro x hx
      exact List.all_eq_true.mp hall x (by simp [hx])
    rw [List.cons_append, tkFrom_cons]
    simp only [step, hc, if_true, ite_true, Except.map, Except.bind, bind]
    rw [ih hcs d (advancePos p c) (acc ++ [c]) o l]
    simp [List.foldl_cons]

theorem tk_word_flush (d : Nat) (p : Pos) (acc : List Char) (o : List Tok)
    (l : List Char) (hl : headNotAlpha l = true) :
    tkFrom ⟨d, p, .word acc, o⟩ l = tkFrom ⟨d, p, .none, o ++ [wordTok acc]⟩ l := by
  rcases l with _ | ⟨c, cs⟩
  · simp [tkFrom_nil, finishTk]
  · have hc : c.isAlpha = false := by
      simpa [headNotAlpha] using hl
    rw [tkFrom_cons, tkFrom_cons]
    simp only [step, hc, Bool.false_eq_true, if_false, ite_false]

theorem tk_word (w : List Char) (hw : w ≠ []) (ha : w.all Char.isAlpha = true)
    (d : Nat) (p : Pos) (o : List Tok) (l : List Char) (hl : headNotAlpha l = true) :
    tkFrom ⟨d, p, .none, o⟩ (w ++ l)
      = tkFrom ⟨d, w.foldl advancePos p, .none, o ++ [wordTok w]⟩ l := by
  rcases w with _ | ⟨c, cs⟩
  · exact absurd rfl hw
  · have hc : c.isAlpha = true := by
      have := List.all_eq_true.mp ha c (by simp)
      simpa using this
    have hcs : cs.all Char.isAlpha = true := by
      apply List.all_eq_true.mpr
      intro x hx
      exact List.all_eq_true.mp ha x (by simp [hx])
    rw [List.cons_append, tkFrom_cons]
    have hstep : step ⟨d, p, .none, o⟩ c
        = .ok ⟨d, advancePos p c, .word [c], o⟩ := by
      have h1 : ¬(c = ' ' || c = '\t') = true := by
        simp only [Bool.or_eq_true, decide_eq_true_eq]
        rintro (rfl | rfl) <;> simp at hc
      have h2 : ¬ c = '\n' := by rintro rfl; simp at hc
      have h3 : ¬ c = '(' := by rintro rfl; simp at hc
      have h4 : ¬ c = ')' := by rintro rfl; simp at hc
      have h5 : ¬ c = ':' := by rintro rfl; simp at hc
      have h6 : ¬ c = ',' := by rintro rfl; simp at hc
      have h7 : ¬ c = '=' := by rintro rfl; simp at hc
      have h8 : ¬ c = '-' := by rintro rfl; simp at hc
      have h9 : ¬ c = '.' := by rintro rfl; simp at hc
      have h10 : ¬ c = '\'' := by rintro rfl; simp at hc
      have h11 : ¬ c = '"' := by rintro rfl; simp at hc
      simp [step, stepNone, h1, h2, h3, h4, h5, h6, h7, h8, h9, h10, h11, hc,
        Except.map]
    rw [hstep, ok_bind]
    rw [tk_word_aux cs hcs d (advancePos p c) [c] o l]
    rw [tk_word_flush _ _ _ _ _ hl]
    simp [List.foldl_cons]

theorem tk_num_aux :
    ∀ (w : List Char), w.all Char.isDigit = true →
      ∀ (d : Nat) (p : Pos) (acc : List Char) (o : List Tok) (l : List Char),
        tkFrom ⟨d, p, .num acc, o⟩ (w ++ l)
          = tkFrom ⟨d, w.foldl advancePos p, .num (acc ++ w), o⟩ l := by
  intro w
  induction w with
  | nil => intro _ d p acc o l; simp
  | cons c cs ih =>
    intro hall d p acc o l
    have hc : c.isDigit = true := by
      have := List.all_eq_true.mp hall c (by simp)
      simpa using this
    have hcs : cs.all Char.isDigit = true := by
      apply List.all_eq_true.mpr
      intro x hx
      exact List.all_eq_true.mp hall x (by simp [hx])
    rw [List.cons_append, tkFrom_cons]
    simp only [step, hc, if_true, ite_true, Except.map, Except.bind, bind]
    rw [ih hcs d (advancePos p c) (acc ++ [c]) o l]
    simp [List.foldl_cons]

theorem tk_num_flush (d : Nat) (p : Pos) (acc : List Char) (o : List Tok)
    (l : List Char) (hl : headNotDigit l = true) :
    tkFrom ⟨d, p, .num acc, o⟩ l = tkFrom ⟨d, p, .none, o ++ [Tok.number ⟨acc⟩]⟩ l := by
  rcases l with _ | ⟨c, cs⟩
  · simp [tkFrom_nil, finishTk]
  · have hc : c.isDigit = false := by
      simpa [headNotDigit] using hl
    rw [tkFrom_cons, tkFrom_cons]
    simp only [step, hc, Bool.false_eq_true, if_false, ite_false]

theorem tk_num (w : List Char) (hw : w ≠ []) (ha : w.all Char.isDigit = true)
    (d : Nat) (p : Pos) (o : List Tok) (l : List Char) (hl : headNotDigit l = true) :
    tkFrom ⟨d, p, .none, o⟩ (w ++ l)
      = tkFrom ⟨d, w.foldl advancePos p, .none, o ++ [Tok.number ⟨w⟩]⟩ l := by
  rcases w with _ | ⟨c, cs⟩
  · exact absurd rfl hw
  · have hc : c.isDigit = true := by
      have := List.all_eq_true.mp ha c (by simp)
      simpa using this
    have hcs : cs.all Char.isDigit = true := by
      apply List.all_eq_true.mpr
      intro x hx
      exact List.all_eq_true.mp ha x (by simp [hx])
    have hna : c.isAlpha = false := digit_not_alpha hc
    rw [List.cons_append, tkFrom_cons]
    have hstep : step ⟨d, p, .none, o⟩ c
        = .ok ⟨d, advancePos p c, .num [c], o⟩ := by
      have h1 : ¬(c = ' ' || c = '\t') = true := by
        simp only [Bool.or_eq_true, decide_eq_true_eq]
        rintro (rfl | rfl) <;> simp at hc
      have h2 : ¬ c = '\n' := by rintro rfl; simp at hc
      have h3 : ¬ c = '(' := by rintro rfl; simp at hc
      have h4 : ¬ c = ')' := by rintro rfl; simp at hc
      have h5 : ¬ c = ':' := by rintro rfl; simp at hc
      have h6 : ¬ c = ',' := by rintro rfl; simp at hc
      have h7 : ¬ c = '=' := by rintro rfl; simp at hc
      have h8 : ¬ c = '-' := by rintro rfl; simp at hc
      have h9 : ¬ c = '.' := by rintro rfl; simp at hc
      have h10 : ¬ c = '\'' := by rintro rfl; simp at hc
      have h11 : ¬ c = '"' := by rintro rfl; simp at hc
      simp [step, stepNone, h1, h2, h3, h4, h5, h6, h7, h8, h9, h10, h11, hna, hc,
        Except.map]
    rw [hstep, ok_bind]
    rw [tk_num_aux cs hcs d (advancePos p c) [c] o l]
    rw [tk_num_flush _ _ _ _ _ hl]
    simp [List.foldl_cons]

theorem tk_space (d : Nat) (p : Pos) (o : List Tok) (l : List Char) :
    tkFrom ⟨d, p, .none, o⟩ (' ' :: l) = tkFrom ⟨d, advancePos p ' ', .none, o⟩ l :=
  tk_ws d p o ' ' (Or.inl rfl) l

/-- The next character cannot extend a name or a number: this is what the
renderer guarantees at every token boundary. -/
def sepAfter (l : List Char) : Bool := l.head?.all (fun c => !(c.isAlpha || c.isDigit))

theorem headNotAlpha_cons (c : Char) (r : List Char) :
    headNotAlpha (c :: r) = !c.isAlpha := by simp [headNotAlpha]

theorem headNotDigit_cons (c : Char) (r : List Char) :
    headNotDigit (c :: r) = !c.isDigit := by simp [headNotDigit]

theorem sep_imp_alpha {l : List Char} (h : sepAfter l = true) : headNotAlpha l = true := by
  cases l with
  | nil => simp [headNotAlpha]
  | cons c r =>
    simp [sepAfter] at h
    simp [headNotAlpha, h.1]

theorem sep_imp_digit {l : List Char} (h : sepAfter l = true) : headNotDigit l = true := by
  cases l with
  | nil => simp [headNotDigit]
  | cons c r =>
    simp [sepAfter] at h
    simp [headNotDigit, h.2]

theorem tk_expr (mode : Mode) (e : Expr) (he : wfExpr e = true) (d : Nat) (p : Pos)
    (o : List Tok) (l : List Char) (hl : sepAfter l = true) :
    tkFrom ⟨d, p, .none, o⟩ (renderExpr mode e ++ l)
      = tkFrom ⟨d, (renderExpr mode e).foldl advancePos p, .none,
          o ++ [exprTok mode e]⟩ l := by
  cases e with
  | nameE s =>
    simp only [wfExpr, wfName, Bool.and_eq_true, Bool.not_eq_true', beq_eq_false_iff_ne,
      ne_eq] at he
    obtain ⟨⟨hne, hal⟩, hdef⟩ := he
    have hnil : s.data ≠ [] := by
      intro hx
      rw [hx] at hne
      simp at hne
    rw [show renderExpr mode (.nameE s) = s.data from rfl, tk_word s.data hnil hal d p o l
      (sep_imp_alpha hl)]
    have : wordTok s.data = Tok.ident s := by
      simp [wordTok]
      intro hx
      exact absurd hx hdef
    rw [this]
    rfl
  | numE s =>
    simp only [wfExpr, Bool.and_eq_true, Bool.not_eq_true'] at he
    obtain ⟨hne, hdg⟩ := he
    have hnil : s.data ≠ [] := by
      intro hx
      rw [hx] at hne
      simp at hne
    rw [show renderExpr mode (.numE s) = s.data from rfl, tk_num s.data hnil hdg d p o l
      (sep_imp_digit hl)]
    rfl
  | strE dq c =>
    have he' : c.data.all plainStrChar = true := he
    have hlist : renderExpr mode (.strE dq c) ++ l
        = (quoteOf (normQuote mode dq) :: c.data) ++ (quoteOf (normQuote mode dq) :: l) := by
      simp [renderExpr]
    rw [hlist, tk_str (normQuote mode dq) c.data he' d p o l]
    simp [renderExpr, exprTok]
  | ellipsisE =>
    rw [show renderExpr mode .ellipsisE ++ l = '.' :: '.' :: '.' :: l from rfl,
      tk_ellipsis]
    rfl

theorem tk_param (mode : Mode) (pa : Param) (hp : wfParam pa = true) (d : Nat) (p : Pos)
    (o : List Tok) (l : List Char) (hl : sepAfter l = true) :
    tkFrom ⟨d, p, .none, o⟩ (renderParam mode pa ++ l)
      = tkFrom ⟨d, (renderParam mode pa).foldl advancePos p, .none,
          o ++ paramToks mode pa⟩ l := by
  obtain ⟨s, annot, dflt⟩ := pa
  simp only [wfParam, Bool.and_eq_true] at hp
  obtain ⟨⟨hs, hannot⟩, hdflt⟩ := hp
  have hsname : wfName s = true := hs
  have hnil : s.data ≠ [] := by
    simp only [wfName, Bool.and_eq_true, Bool.not_eq_true'] at hsname
    intro hx
    rw [hx] at hsname
    simp at hsname
  have hal : s.data.all Char.isAlpha = true := by
    simp only [wfName, Bool.and_eq_true] at hsname
    exact hsname.1.2
  have hword : wordTok s.data = Tok.ident s := by
    simp only [wfName, Bool.and_eq_true, Bool.not_eq_true', beq_eq_false_iff_ne, ne_eq] at hsname
    simp [wordTok]
    intro hx
    exact absurd hx hsname.2
  rcases annot with _ | a <;> rcases dflt with _ | d2
  · -- no annotation, no default
    simp only [renderParam, paramToks, List.append_nil]
    rw [tk_word s.data hnil hal d p o l (sep_imp_alpha hl), hword]
  · -- no annotation, default
    have hd2 : wfExpr d2 = true := by simpa using hdflt
    simp only [renderParam, paramToks, List.nil_append, List.append_assoc,
      List.cons_append]
    rw [tk_word s.data hnil hal d p o _ (by rw [headNotAlpha_cons]; decide), hword]
    rw [tk_eq]
    rw [tk_expr mode d2 hd2 _ _ _ _ hl]
    simp
  · -- annotation, no default
    have ha : wfExpr a = true := by simpa using hannot
    simp only [renderParam, paramToks, List.append_nil, List.append_assoc,
      List.cons_append]
    rw [tk_word s.data hnil hal d p o _ (by rw [headNotAlpha_cons]; decide), hword]
    rw [tk_colon, tk_space]
    rw [tk_expr mode a ha _ _ _ _ hl]
    simp
  · -- annotation and default
    have ha : wfExpr a = true := by simpa using hannot
    have hd2 : wfExpr d2 = true := by simpa using hdflt
    simp only [renderParam, paramToks, List.append_assoc, List.cons_append]
    rw [tk_word s.data hnil hal d p o _ (by rw [headNotAlpha_cons]; decide), hword]
    rw [tk_colon, tk_space]
    rw [tk_expr mode a ha _ _ _ _ (by rw [sepAfter]; simp)]
    rw [tk_space, tk_eq, tk_space]
    rw [tk_expr mode d2 hd2 _ _ _ _ hl]
    simp

theorem tk_paramsFlat (mode : Mode) :
    ∀ ps : List Param, ps.all wfParam = true → ∀ (d : Nat) (p : Pos) (o : List Tok)
      (l : List Char), sepAfter l = true →
      tkFrom ⟨d, p, .none, o⟩ (renderParamsFlat mode ps ++ l)
        = tkFrom ⟨d, (renderParamsFlat mode ps).foldl advancePos p, .none,
            o ++ paramsToksCore mode ps⟩ l := by
  intro ps
  induction ps with
  | nil =>
    intro _ d p o l _
    simp [renderParamsFlat, paramsToksCore]
  | cons q qs ih =>
    intro hall d p o l hl
    have hq : wfParam q = true := by
      have := List.all_eq_true.mp hall q (by simp)
      simpa using this
    have hqs : qs.all wfParam = true := by
      apply List.all_eq_true.mpr
      intro x hx
      exact List.all_eq_true.mp hall x (by simp [hx])
    cases qs with
    | nil =>
      simp only [renderParamsFlat, paramsToksCore]
      exact tk_param mode q hq d p o l hl
    | cons q2 qs2 =>
      simp only [renderParamsFlat, paramsToksCore, List.append_assoc, List.cons_append]
      rw [tk_param mode q hq d p o _ (by rw [sepAfter]; simp)]
      rw [tk_comma, tk_space]
      rw [ih hqs _ _ _ _ hl]
      simp [List.foldl_append]

/-- Token stream of an exploded parameter block: every parameter followed by
a comma. -/
def explodedToks (mode : Mode) : List Param → List Tok
  | [] => []
  | p :: ps => paramToks mode p ++ Tok.comma :: explodedToks mode ps

theorem explodedToks_eq (mode : Mode) :
    ∀ ps : List Param, ps ≠ [] →
      explodedToks mode ps = paramsToksCore mode ps ++ [Tok.comma] := by
  intro ps
  induction ps with
  | nil => intro h; exact absurd rfl h
  | cons q qs ih =>
    intro _
    cases qs with
    | nil => simp [explodedToks, paramsToksCore]
    | cons q2 qs2 =>
      rw [show explodedToks mode (q :: q2 :: qs2)
          = paramToks mode q ++ Tok.comma :: explodedToks mode (q2 :: qs2) from rfl]
      rw [ih (by simp)]
      simp [paramsToksCore]

theorem tk_paramsExploded (mode : Mode) :
    ∀ ps : List Param, ps.all wfParam = true → ∀ (d : Nat), d ≠ 0 →
      ∀ (p : Pos) (o : List Tok) (l : List Char),
      tkFrom ⟨d, p, .none, o⟩ (renderParamsExploded mode ps ++ l)
        = tkFrom ⟨d, (renderParamsExploded mode ps).foldl advancePos p, .none,
            o ++ explodedToks mode ps⟩ l := by
  intro ps
  induction ps with
  | nil =>
    intro _ d _ p o l
    simp [renderParamsExploded, explodedToks]
  | cons q qs ih =>
    intro hall d hd p o l
    have hq : wfParam q = true := by
      have := List.all_eq_true.mp hall q (by simp)
      simpa using this
    have hqs : qs.all wfParam = true := by
      apply List.all_eq_true.mpr
      intro x hx
      exact List.all_eq_true.mp hall x (by simp [hx])
    simp only [renderParamsExploded, explodedToks, List.append_assoc, List.cons_append]
    rw [tk_space, tk_space, tk_space, tk_space]
    rw [tk_param mode q hq d _ o _ (by rw [sepAfter]; simp)]
    rw [tk_comma, tk_nl_pos d hd]
    rw [ih hqs d hd]
    simp [List.foldl_append]

theorem tk_def_kw (d : Nat) (p : Pos) (o : List Tok) (l : List Char) :
    tkFrom ⟨d, p, .none, o⟩ ('d' :: 'e' :: 'f' :: ' ' :: l)
      = tkFrom ⟨d, advancePos (['d', 'e', 'f'].foldl advancePos p) ' ', .none,
          o ++ [Tok.kwDef]⟩ l := by
  rw [show ('d' :: 'e' :: 'f' :: ' ' :: l) = ['d', 'e', 'f'] ++ ' ' :: l from rfl]
  rw [tk_word ['d', 'e', 'f'] (by simp) (by decide) d p o _
    (by rw [headNotAlpha_cons]; decide)]
  rw [tk_space]
  rw [show wordTok ['d', 'e', 'f'] = Tok.kwDef from by decide]

theorem wfName_facts {s : String} (h : wfName s = true) :
    s.data ≠ [] ∧ s.data.all Char.isAlpha = true ∧ wordTok s.data = Tok.ident s := by
  simp only [wfName, Bool.and_eq_true, Bool.not_eq_true', beq_eq_false_iff_ne, ne_eq] at h
  refine ⟨?_, h.1.2, ?_⟩
  · intro hx
    have := h.1.1
    rw [hx] at this
    simp at this
  · simp [wordTok]
    intro hx
    exact absurd hx h.2

theorem tk_stmt (mode : Mode) (s : Stmt) (hs : wfStmt s = true) (p : Pos)
    (o : List Tok) (l : List Char) :
    tkFrom ⟨0, p, .none, o⟩ (renderStmt mode s ++ l)
      = tkFrom ⟨0, (renderStmt mode s).foldl advancePos p, .none,
          o ++ stmtToks mode s⟩ l := by
  cases s with
  | exprStmt e =>
    have he : wfExpr e = true := hs
    simp only [renderStmt, stmtToks, List.append_assoc, List.cons_append]
    rw [tk_expr mode e he _ _ _ _ (by rw [sepAfter]; simp)]
    rw [tk_nl0]
    simp [List.foldl_append]
  | defStmt f ps ret b =>
    simp only [wfStmt, Bool.and_eq_true] at hs
    obtain ⟨⟨⟨hf, hps⟩, hret⟩, hb⟩ := hs
    obtain ⟨hfnil, hfal, hfword⟩ := wfName_facts hf
    by_cases hx : explodeDef mode f ps ret = true
    · -- exploded header
      have hpsne : ps ≠ [] := by
        simp only [explodeDef, Bool.and_eq_true, Bool.not_eq_true'] at hx
        intro h0
        rw [h0] at hx
        simp at hx
      simp only [renderStmt, stmtToks, defHeaderExploded, hx, if_true, ite_true,
        List.append_assoc, List.cons_append, List.nil_append]
      rw [tk_def_kw]
      rw [tk_word f.data hfnil hfal _ _ _ _ (by rw [headNotAlpha_cons]; decide), hfword]
      rw [tk_lpar]
      rw [tk_nl_pos (0 + 1) (by simp)]
      rw [tk_paramsExploded mode ps hps (0 + 1) (by simp)]
      rw [tk_rpar]
      simp only [Nat.add_sub_cancel]
      cases ret with
      | none =>
        simp only [renderRet, retToks, List.nil_append]
        rw [tk_colon, tk_nl0, tk_space, tk_space, tk_space, tk_space]
        rw [tk_expr mode b hb _ _ _ _ (by rw [sepAfter]; simp)]
        rw [tk_nl0]
        rw [explodedToks_eq mode ps hpsne]
        simp [List.foldl_append]
      | some re =>
        have hre : wfExpr re = true := by simpa using hret
        simp only [renderRet, retToks, List.cons_append, List.nil_append]
        rw [tk_space, tk_arrow]
        rw [tk_space]
        rw [tk_expr mode re hre _ _ _ _ (by rw [sepAfter]; simp)]
        rw [tk_colon, tk_nl0, tk_space, tk_space, tk_space, tk_space]
        rw [tk_expr mode b hb _ _ _ _ (by rw [sepAfter]; simp)]
        rw [tk_nl0]
        rw [explodedToks_eq mode ps hpsne]
        simp [List.foldl_append]
    · -- flat header
      have hx' : explodeDef mode f ps ret = false := by
        simpa using hx
      simp only [renderStmt, stmtToks, defHeaderFlat, hx', if_false, ite_false,
        Bool.false_eq_true, List.append_assoc, List.cons_append, List.nil_append]
      rw [tk_def_kw]
      rw [tk_word f.data hfnil hfal _ _ _ _ (by rw [headNotAlpha_cons]; decide), hfword]
      rw [tk_lpar]
      rw [tk_paramsFlat mode ps hps _ _ _ _ (by rw [sepAfter]; simp)]
      rw [tk_rpar]
      simp only [Nat.add_sub_cancel]
      cases ret with
      | none =>
        simp only [renderRet, retToks, List.nil_append]
        rw [tk_colon, tk_nl0, tk_space, tk_space, tk_space, tk_space]
        rw [tk_expr mode b hb _ _ _ _ (by rw [sepAfter]; simp)]
        rw [tk_nl0]
        simp [List.foldl_append]
      | some re =>
        have hre : wfExpr re = true := by simpa using hret
        simp only [renderRet, retToks, List.cons_append, List.nil_append]
        rw [tk_space, tk_arrow]
        rw [tk_space]
        rw [tk_expr mode re hre _ _ _ _ (by rw [sepAfter]; simp)]
        rw [tk_colon, tk_nl0, tk_space, tk_space, tk_space, tk_space]
        rw [tk_expr mode b hb _ _ _ _ (by rw [sepAfter]; simp)]
        rw [tk_nl0]
        simp [List.foldl_append]

theorem tk_nls :
    ∀ (k : Nat) (p : Pos) (o : List Tok) (l : List Char),
      tkFrom ⟨0, p, .none, o⟩ (List.replicate k '\n' ++ l)
        = tkFrom ⟨0, (List.replicate k '\n').foldl advancePos p, .none,
            o ++ List.replicate k Tok.nl⟩ l := by
  intro k
  induction k with
  | zero => intro p o l; simp
  | succ k ih =>
    intro p o l
    simp only [List.replicate_succ, List.cons_append]
    rw [tk_nl0, ih]
    simp

theorem tk_module (mode : Mode) :
    ∀ ms : List Stmt, wfModule ms = true → ∀ (p : Pos) (o : List Tok) (l : List Char),
      tkFrom ⟨0, p, .none, o⟩ (renderModule mode ms ++ l)
        = tkFrom ⟨0, (renderModule mode ms).foldl advancePos p, .none,
            o ++ moduleToks mode ms⟩ l := by
  intro ms
  induction ms with
  | nil => intro _ p o l; simp [renderModule, moduleToks]
  | cons s ms ih =>
    intro hall p o l
    have hs : wfStmt s = true := by
      have := List.all_eq_true.mp hall s (by simp)
      simpa using this
    have hms : wfModule ms = true := by
      apply List.all_eq_true.mpr
      intro x hx
      exact List.all_eq_true.mp hall x (by simp [hx])
    cases ms with
    | nil =>
      simp only [renderModule, moduleToks]
      exact tk_stmt mode s hs p o l
    | cons s2 ms2 =>
      simp only [renderModule, moduleToks, List.append_assoc]
      rw [tk_stmt mode s hs]
      rw [tk_nls]
      rw [ih hms]
      simp [List.foldl_append]

/-- Tokenizing a rendered well-formed module yields exactly its token
stream. -/
theorem tokenize_render (mode : Mode) (ms : List Stmt) (h : wfModule ms = true) :
    tokenize (renderModule mode ms) = .ok (moduleToks mode ms) := by
  have key := tk_module mode ms h ⟨1, 0⟩ [] []
  rw [List.append_nil] at key
  rw [tokenize, show initSt = ⟨0, ⟨1, 0⟩, .none, []⟩ from rfl, key, tkFrom_nil]
  simp [finishTk]

/-! ### Parser lemmas: parsing the token stream of a rendered module
recovers the module (with normalized string quotes) -/

theorem parseExpr_tok (mode : Mode) (e : Expr) (r : List Tok) :
    parseExpr (exprTok mode e :: r) = some (canonExpr mode e, r) := by
  cases e <;> rfl

theorem parseParams_rpar (fuel : Nat) (r : List Tok) :
    parseParams fuel (Tok.rpar :: r) = some ([], r) := by
  cases fuel <;> rfl

theorem parseParams_one (mode : Mode) (pa : Param) (fuel : Nat) (r : List Tok) :
    parseParams (fuel + 1) (paramToks mode pa ++ Tok.rpar :: r)
      = some ([canonParam mode pa], r) := by
  obtain ⟨s, annot, dflt⟩ := pa
  rcases annot with _ | a <;> rcases dflt with _ | d2 <;>
    simp [paramToks, parseParams, parseParam, parseExpr_tok, canonParam]

theorem parseParams_one_trail (mode : Mode) (pa : Param) (fuel : Nat) (r : List Tok) :
    parseParams (fuel + 1) (paramToks mode pa ++ Tok.comma :: Tok.rpar :: r)
      = some ([canonParam mode pa], r) := by
  obtain ⟨s, annot, dflt⟩ := pa
  rcases annot with _ | a <;> rcases dflt with _ | d2 <;>
    simp [paramToks, parseParams, parseParam, parseExpr_tok, canonParam]

theorem parseParams_cons (mode : Mode) (pa : Param) (fuel : Nat) (rest : List Tok)
    (hr : rest.head? ≠ some Tok.rpar) :
    parseParams (fuel + 1) (paramToks mode pa ++ Tok.comma :: rest)
      = match parseParams fuel rest with
        | some (ps, r') => some (canonParam mode pa :: ps, r')
        | none => none := by
  obtain ⟨s, annot, dflt⟩ := pa
  rcases rest with _ | ⟨t2, r2⟩
  · rcases annot with _ | a <;> rcases dflt with _ | d2 <;>
      simp [paramToks, parseParams, parseParam, parseExpr_tok, canonParam]
  · cases t2 <;>
      first
      | (exact absurd rfl hr)
      | (rcases annot with _ | a <;> rcases dflt with _ | d2 <;>
          simp [paramToks, parseParams, parseParam, parseExpr_tok, canonParam])

theorem paramToks_length (mode : Mode) (p : Param) : 1 ≤ (paramToks mode p).length := by
  obtain ⟨s, a, d⟩ := p
  rcases a <;> rcases d <;> simp [paramToks]

theorem paramsToksCore_head (mode : Mode) :
    ∀ (q : Param) (qs : List Param),
      (paramsToksCore mode (q :: qs)).head? = some (Tok.ident q.pname) := by
  intro q qs
  obtain ⟨s, a, d⟩ := q
  cases qs <;> rcases a <;> rcases d <;> simp [paramsToksCore, paramToks]

theorem parseParams_toks (mode : Mode) :
    ∀ (qs : List Param) (q : Param) (fuel : Nat) (r : List Tok), qs.length < fuel →
      parseParams fuel (paramsToksCore mode (q :: qs) ++ Tok.rpar :: r)
        = some ((q :: qs).map (canonParam mode), r) := by
  intro qs
  induction qs with
  | nil =>
    intro q fuel r hf
    match fuel, hf with
    | fuel + 1, _ =>
      simp only [paramsToksCore]
      rw [parseParams_one]
      simp
  | cons q2 qs2 ih =>
    intro q fuel r hf
    match fuel, hf with
    | fuel + 1, hf =>
      have h2 : qs2.length < fuel := by
        simp at hf
        omega
      have hhead : (paramsToksCore mode (q2 :: qs2) ++ Tok.rpar :: r).head?
          ≠ some Tok.rpar := by
        rw [List.head?_append_of_ne_nil]
        · rw [paramsToksCore_head]
          simp
        · intro hx
          have := paramsToksCore_head mode q2 qs2
          rw [hx] at this
          simp at this
      simp only [paramsToksCore, List.append_assoc, List.cons_append]
      rw [parseParams_cons mode q fuel _ hhead]
      rw [ih q2 fuel r h2]
      simp

theorem parseParams_toks_trail (mode : Mode) :
    ∀ (qs : List Param) (q : Param) (fuel : Nat) (r : List Tok), qs.length < fuel →
      parseParams fuel
          (paramsToksCore mode (q :: qs) ++ Tok.comma :: Tok.rpar :: r)
        = some ((q :: qs).map (canonParam mode), r) := by
  intro qs
  induction qs with
  | nil =>
    intro q fuel r hf
    match fuel, hf with
    | fuel + 1, _ =>
      simp only [paramsToksCore]
      rw [parseParams_one_trail]
      simp
  | cons q2 qs2 ih =>
    intro q fuel r hf
    match fuel, hf with
    | fuel + 1, hf =>
      have h2 : qs2.length < fuel := by
        simp at hf
        omega
      have hhead : (paramsToksCore mode (q2 :: qs2)
          ++ Tok.comma :: Tok.rpar :: r).head? ≠ some Tok.rpar := by
        rw [List.head?_append_of_ne_nil]
        · rw [paramsToksCore_head]
          simp
        · intro hx
          have := paramsToksCore_head mode q2 qs2
          rw [hx] at this
          simp at this
      simp only [paramsToksCore, List.append_assoc, List.cons_append]
      rw [parseParams_cons mode q fuel _ hhead]
      rw [ih q2 fuel r h2]
      simp

/-- Fuel needed by `parseStmt` (for its parameter-list loop). -/
def stmtFuel : Stmt → Nat
  | .defStmt _ ps _ _ => ps.length
  | .exprStmt _ => 0

theorem parseStmt_toks (mode : Mode) (s : Stmt) (fuel : Nat) (r : List Tok)
    (hfu : stmtFuel s ≤ fuel) :
    parseStmt fuel (stmtToks mode s ++ r) = some (canonStmt mode s, r) := by
  cases s with
  | exprStmt e =>
    cases e <;>
      simp [stmtToks, parseStmt, parseExpr, exprTok, canonStmt, canonExpr]
  | defStmt f ps ret b =>
    simp only [stmtToks, List.cons_append, List.append_assoc, List.nil_append]
    have hstep : parseStmt fuel (Tok.kwDef :: Tok.ident f :: Tok.lpar ::
        (paramsToksCore mode ps
          ++ ((if explodeDef mode f ps ret then [Tok.comma] else [])
            ++ (Tok.rpar :: (retToks mode ret
              ++ (Tok.colon :: Tok.nl :: exprTok mode b :: Tok.nl :: r))))))
        = match parseParams fuel
            (paramsToksCore mode ps
              ++ ((if explodeDef mode f ps ret then [Tok.comma] else [])
                ++ (Tok.rpar :: (retToks mode ret
                  ++ (Tok.colon :: Tok.nl :: exprTok mode b :: Tok.nl :: r))))) with
          | some (ps', r2) =>
            (match r2 with
             | Tok.arrow :: ra =>
               (match parseExpr ra with
                | some (ret', rb) => parseDefTail f ps' (some ret') rb
                | none => none)
             | _ => parseDefTail f ps' none r2)
          | none => none := by
      simp [parseStmt]
    rw [hstep]
    have hparams : parseParams fuel
        (paramsToksCore mode ps
          ++ ((if explodeDef mode f ps ret then [Tok.comma] else [])
            ++ (Tok.rpar :: (retToks mode ret
              ++ (Tok.colon :: Tok.nl :: exprTok mode b :: Tok.nl :: r)))))
        = some (ps.map (canonParam mode),
            retToks mode ret ++ (Tok.colon :: Tok.nl :: exprTok mode b :: Tok.nl :: r)) := by
      by_cases hx : explodeDef mode f ps ret = true
      · have hpsne : ps ≠ [] := by
          simp only [explodeDef, Bool.and_eq_true, Bool.not_eq_true'] at hx
          intro h0
          rw [h0] at hx
          simp at hx
        rcases ps with _ | ⟨q, qs⟩
        · exact absurd rfl hpsne
        · have hlen : qs.length < fuel := by
            simp [stmtFuel] at hfu
            omega
          rw [hx]
          simp only [if_true, ite_true, List.cons_append, List.nil_append]
          exact parseParams_toks_trail mode qs q fuel _ hlen
      · have hx' : explodeDef mode f ps ret = false := by simpa using hx
        rw [hx']
        simp only [if_false, ite_false, Bool.false_eq_true, List.nil_append]
        rcases ps with _ | ⟨q, qs⟩
        · simp only [paramsToksCore, List.nil_append]
          exact parseParams_rpar fuel _
        · have hlen : qs.length < fuel := by
            simp [stmtFuel] at hfu
            omega
          exact parseParams_toks mode qs q fuel _ hlen
    rw [hparams]
    cases ret with
    | none =>
      simp only [retToks, List.nil_append]
      simp [parseDefTail, parseExpr_tok, canonStmt]
    | some re =>
      simp only [retToks, List.cons_append, List.nil_append]
      simp [parseDefTail, parseExpr_tok, canonStmt]

theorem parseModuleAux_nil (fuel : Nat) : parseModuleAux fuel [] = some [] := by
  cases fuel <;> rfl

theorem parseModuleAux_nl (fuel : Nat) (ts : List Tok) :
    parseModuleAux (fuel + 1) (Tok.nl :: ts) = parseModuleAux fuel ts := rfl

theorem parseModuleAux_cons (fuel : Nat) (t : Tok) (ts : List Tok) (ht : t ≠ Tok.nl) :
    parseModuleAux (fuel + 1) (t :: ts)
      = match parseStmt fuel (t :: ts) with
        | some (s, r) =>
          (match parseModuleAux fuel r with
           | some ms => some (s :: ms)
           | none => none)
        | none => none := by
  cases t <;> first | (exact absurd rfl ht) | simp [parseModuleAux]

theorem parse_nls :
    ∀ (k fuel : Nat) (ts : List Tok), k < fuel →
      parseModuleAux fuel (List.replicate k Tok.nl ++ ts)
        = parseModuleAux (fuel - k) ts := by
  intro k
  induction k with
  | zero => intro fuel ts _; simp
  | succ k ih =>
    intro fuel ts hk
    match fuel, hk with
    | fuel + 1, hk =>
      simp only [List.replicate_succ, List.cons_append, parseModuleAux_nl]
      rw [ih fuel ts (by omega)]
      congr 1
      omega

theorem stmtToks_shape (mode : Mode) (s : Stmt) :
    ∃ t ts', stmtToks mode s = t :: ts' ∧ t ≠ Tok.nl := by
  cases s with
  | defStmt f ps ret b => exact ⟨_, _, rfl, by simp⟩
  | exprStmt e => cases e <;> exact ⟨_, _, rfl, by simp [exprTok]⟩

theorem paramsToksCore_length (mode : Mode) :
    ∀ ps : List Param, ps.length ≤ (paramsToksCore mode ps).length := by
  intro ps
  induction ps with
  | nil => simp [paramsToksCore]
  | cons q qs ih =>
    cases qs with
    | nil => simpa [paramsToksCore] using paramToks_length mode q
    | cons q2 qs2 =>
      have h1 := paramToks_length mode q
      simp only [paramsToksCore, List.length_cons, List.length_append] at *
      omega

theorem stmtFuel_lt (mode : Mode) (s : Stmt) : stmtFuel s < (stmtToks mode s).length := by
  cases s with
  | exprStmt e => simp [stmtFuel, stmtToks]
  | defStmt f ps ret b =>
    have h1 := paramsToksCore_length mode ps
    by_cases hx : explodeDef mode f ps ret = true <;> cases ret <;>
      simp only [stmtFuel, stmtToks, hx, if_true, ite_true, if_false, ite_false,
        eq_self_iff_true, Bool.not_eq_true, retToks, List.length_append,
        List.length_cons, List.length_nil] <;>
      omega

theorem parseModuleAux_toks (mode : Mode) :
    ∀ (ms : List Stmt) (fuel : Nat), (moduleToks mode ms).length < fuel →
      parseModuleAux fuel (moduleToks mode ms) = some (canonModule mode ms) := by
  intro ms
  induction ms with
  | nil =>
    intro fuel _
    simp [moduleToks, parseModuleAux_nil, canonModule]
  | cons s ms2 ih =>
    intro fuel hf
    cases ms2 with
    | nil =>
      match fuel, hf with
      | fuel + 1, hf =>
        obtain ⟨t, ts', hshape, ht⟩ := stmtToks_shape mode s
        simp only [moduleToks] at hf ⊢
        have hfu : stmtFuel s ≤ fuel := by
          have h1 := stmtFuel_lt mode s
          omega
        rw [hshape, parseModuleAux_cons fuel t ts' ht]
        have hp := parseStmt_toks mode s fuel [] hfu
        rw [List.append_nil, hshape] at hp
        simp only [hp]
        simp [parseModuleAux_nil, canonModule]
    | cons s2 ms3 =>
      match fuel, hf with
      | fuel + 1, hf =>
        obtain ⟨t, ts', hshape, ht⟩ := stmtToks_shape mode s
        simp only [moduleToks, List.append_assoc] at hf ⊢
        have hlen1 : (stmtToks mode s).length = ts'.length + 1 := by
          rw [hshape]
          simp
        rw [hshape] at hf
        simp only [List.length_append, List.length_cons, List.length_replicate] at hf
        have hfu : stmtFuel s ≤ fuel := by
          have h1 := stmtFuel_lt mode s
          omega
        rw [hshape, List.cons_append, parseModuleAux_cons fuel t _ ht]
        have hp := parseStmt_toks mode s fuel
          (List.replicate (blankSep mode s s2) Tok.nl ++ moduleToks mode (s2 :: ms3)) hfu
        rw [hshape, List.cons_append] at hp
        simp only [hp]
        have hk : blankSep mode s s2 < fuel := by omega
        rw [parse_nls (blankSep mode s s2) fuel _ hk]
        rw [ih (fuel - blankSep mode s s2) (by omega)]
        simp [canonModule]

theorem parseModule_toks (mode : Mode) (ms : List Stmt) :
    parseModule (moduleToks mode ms) = some (canonModule mode ms) :=
  parseModuleAux_toks mode ms _ (by omega)

/-! ### Canonicalization preserves well-formedness and rendering -/

theorem wfExpr_canon (mode : Mode) (e : Expr) : wfExpr (canonExpr mode e) = wfExpr e := by
  cases e <;> simp [canonExpr, wfExpr]

theorem wfParam_canon (mode : Mode) (p : Param) :
    wfParam (canonParam mode p) = wfParam p := by
  obtain ⟨s, a, d⟩ := p
  rcases a <;> rcases d <;> simp [canonParam, wfParam, Option.all, wfExpr_canon]

theorem all_wfParam_canon (mode : Mode) (ps : List Param) :
    ps.all (wfParam ∘ canonParam mode) = ps.all wfParam := by
  simp [Function.comp_def, wfParam_canon]

theorem wfStmt_canon (mode : Mode) (s : Stmt) : wfStmt (canonStmt mode s) = wfStmt s := by
  cases s with
  | exprStmt e => simp [canonStmt, wfStmt, wfExpr_canon]
  | defStmt f ps ret b =>
    rcases ret <;>
      (simp [canonStmt, wfStmt, wfExpr_canon, Option.all, List.all_map];
       rw [all_wfParam_canon])

theorem all_wfStmt_canon (mode : Mode) (ms : List Stmt) :
    ms.all (wfStmt ∘ canonStmt mode) = ms.all wfStmt := by
  simp [Function.comp_def, wfStmt_canon]

theorem wfModule_canon (mode : Mode) (ms : List Stmt) :
    wfModule (canonModule mode ms) = wfModule ms := by
  simp only [wfModule, canonModule, List.all_map]
  rw [all_wfStmt_canon]

theorem normQuote_idem (mode : Mode) (dq : Bool) :
    normQuote mode (normQuote mode dq) = normQuote mode dq := by
  by_cases h : mode.string_normalization = true <;> simp [normQuote, h]

theorem renderExpr_canon (mode : Mode) (e : Expr) :
    renderExpr mode (canonExpr mode e) = renderExpr mode e := by
  cases e <;> simp [canonExpr, renderExpr, normQuote_idem]

theorem renderParam_canon (mode : Mode) (p : Param) :
    renderParam mode (canonParam mode p) = renderParam mode p := by
  obtain ⟨s, a, d⟩ := p
  rcases a <;> rcases d <;> simp [canonParam, renderParam, renderExpr_canon]

theorem renderParamsFlat_canon (mode : Mode) :
    ∀ ps : List Param,
      renderParamsFlat mode (ps.map (canonParam mode)) = renderParamsFlat mode ps := by
  intro ps
  induction ps with
  | nil => simp [renderParamsFlat]
  | cons q qs ih =>
    cases qs with
    | nil => simp [renderParamsFlat, renderParam_canon]
    | cons q2 qs2 =>
      simp only [List.map_cons, renderParamsFlat, renderParam_canon]
      rw [show (canonParam mode q2 :: qs2.map (canonParam mode))
          = (q2 :: qs2).map (canonParam mode) from by simp]
      rw [ih]

theorem renderParamsExploded_canon (mode : Mode) :
    ∀ ps : List Param,
      renderParamsExploded mode (ps.map (canonParam mode))
        = renderParamsExploded mode ps := by
  intro ps
  induction ps with
  | nil => simp [renderParamsExploded]
  | cons q qs ih => simp [renderParamsExploded, renderParam_canon, ih]

theorem renderRet_canon (mode : Mode) (ret : Option Expr) :
    renderRet mode (ret.map (canonExpr mode)) = renderRet mode ret := by
  rcases ret <;> simp [renderRet, renderExpr_canon]

theorem defHeaderFlat_canon (mode : Mode) (f : String) (ps : List Param)
    (ret : Option Expr) :
    defHeaderFlat mode f (ps.map (canonParam mode)) (ret.map (canonExpr mode))
      = defHeaderFlat mode f ps ret := by
  simp [defHeaderFlat, renderParamsFlat_canon, renderRet_canon]

theorem explodeDef_canon (mode : Mode) (f : String) (ps : List Param)
    (ret : Option Expr) :
    explodeDef mode f (ps.map (canonParam mode)) (ret.map (canonExpr mode))
      = explodeDef mode f ps ret := by
  have h1 : (ps.map (canonParam mode)).isEmpty = ps.isEmpty := by cases ps <;> simp
  simp [explodeDef, defHeaderFlat_canon, h1]

theorem renderStmt_canon (mode : Mode) (s : Stmt) :
    renderStmt mode (canonStmt mode s) = renderStmt mode s := by
  cases s with
  | exprStmt e => simp [canonStmt, renderStmt, renderExpr_canon]
  | defStmt f ps ret b =>
    simp only [canonStmt, renderStmt, explodeDef_canon, defHeaderFlat_canon,
      renderExpr_canon, defHeaderExploded, renderParamsExploded_canon, renderRet_canon]

theorem isDef_canon (mode : Mode) (s : Stmt) : (canonStmt mode s).isDef = s.isDef := by
  cases s <;> simp [canonStmt, Stmt.isDef]

theorem blankSep_canon (mode : Mode) (a b : Stmt) :
    blankSep mode (canonStmt mode a) (canonStmt mode b) = blankSep mode a b := by
  simp [blankSep, isDef_canon]

theorem renderModule_canon (mode : Mode) :
    ∀ ms : List Stmt, renderModule mode (canonModule mode ms) = renderModule mode ms := by
  intro ms
  induction ms with
  | nil => simp [canonModule, renderModule]
  | cons s ms2 ih =>
    cases ms2 with
    | nil => simp [canonModule, renderModule, renderStmt_canon]
    | cons s2 ms3 =>
      simp only [canonModule, List.map_cons, renderModule, renderStmt_canon,
        blankSep_canon]
      rw [show (canonStmt mode s2 :: ms3.map (canonStmt mode))
          = canonModule mode (s2 :: ms3) from by simp [canonModule]]
      rw [ih]

/-! ### Leading whitespace and the entry-point theorems -/

theorem alpha_not_ws {c : Char} (h : c.isAlpha = true) : pyWs c = false := by
  cases hpw : pyWs c
  · rfl
  · exfalso
    simp only [pyWs, Bool.or_eq_true, decide_eq_true_eq] at hpw
    rcases hpw with ((((rfl | rfl) | rfl) | rfl) | rfl) | rfl <;> simp at h

theorem digit_not_ws {c : Char} (h : c.isDigit = true) : pyWs c = false := by
  cases hpw : pyWs c
  · rfl
  · exfalso
    simp only [pyWs, Bool.or_eq_true, decide_eq_true_eq] at hpw
    rcases hpw with ((((rfl | rfl) | rfl) | rfl) | rfl) | rfl <;> simp at h

theorem renderStmt_head (mode : Mode) (s : Stmt) (hs : wfStmt s = true) :
    ∃ c cs, renderStmt mode s = c :: cs ∧ pyWs c = false := by
  cases s with
  | defStmt f ps ret b =>
    by_cases hx : explodeDef mode f ps ret = true
    · refine ⟨'d', 'e' :: 'f' :: ' '
        :: (f.data ++ '(' :: '\n' :: renderParamsExploded mode ps
            ++ ')' :: renderRet mode ret ++ [':'])
        ++ '\n' :: ' ' :: ' ' :: ' ' :: ' ' :: renderExpr mode b ++ ['\n'],
        ?_, by decide⟩
      simp [renderStmt, hx, defHeaderExploded]
    · have hx' : explodeDef mode f ps ret = false := by simpa using hx
      refine ⟨'d', 'e' :: 'f' :: ' '
        :: (f.data ++ '(' :: renderParamsFlat mode ps
            ++ [')'] ++ renderRet mode ret ++ [':'])
        ++ '\n' :: ' ' :: ' ' :: ' ' :: ' ' :: renderExpr mode b ++ ['\n'],
        ?_, by decide⟩
      simp [renderStmt, hx', defHeaderFlat]
  | exprStmt e =>
    cases e with
    | nameE s2 =>
      have h1 : wfName s2 = true := hs
      simp only [wfName, Bool.and_eq_true, Bool.not_eq_true'] at h1
      rcases hd : s2.data with _ | ⟨c, cs⟩
      · exfalso
        have := h1.1.1
        rw [hd] at this
        simp at this
      · have hca : c.isAlpha = true := by
          have := h1.1.2
          rw [hd] at this
          exact (by simpa using List.all_eq_true.mp this c (by simp))
        exact ⟨c, cs ++ ['\n'], by simp [renderStmt, renderExpr, hd],
          alpha_not_ws hca⟩
    | numE s2 =>
      have h1 : (!s2.data.isEmpty && s2.data.all Char.isDigit) = true := hs
      simp only [Bool.and_eq_true, Bool.not_eq_true'] at h1
      rcases hd : s2.data with _ | ⟨c, cs⟩
      · exfalso
        have := h1.1
        rw [hd] at this
        simp at this
      · have hca : c.isDigit = true := by
          have := h1.2
          rw [hd] at this
          exact (by simpa using List.all_eq_true.mp this c (by simp))
        exact ⟨c, cs ++ ['\n'], by simp [renderStmt, renderExpr, hd],
          digit_not_ws hca⟩
    | strE dq c =>
      refine ⟨quoteOf (normQuote mode dq),
        c.data ++ [quoteOf (normQuote mode dq)] ++ ['\n'],
        by simp [renderStmt, renderExpr], ?_⟩
      cases normQuote mode dq <;> decide
    | ellipsisE =>
      exact ⟨'.', ['.', '.', '\n'], by simp [renderStmt, renderExpr], by decide⟩

theorem pyLstrip_render (mode : Mode) (ms : List Stmt) (h : wfModule ms = true) :
    pyLstrip ⟨renderModule mode ms⟩ = ⟨renderModule mode ms⟩ := by
  cases ms with
  | nil => rfl
  | cons s ms2 =>
    have hs : wfStmt s = true := by
      have := List.all_eq_true.mp h s (by simp)
      simpa using this
    obtain ⟨c, cs, hsc, hcw⟩ := renderStmt_head mode s hs
    have hshape : ∃ tail, renderModule mode (s :: ms2) = c :: tail := by
      cases ms2 <;> simp [renderModule, hsc]
    obtain ⟨tail, htail⟩ := hshape
    rw [htail]
    show (⟨(c :: tail).dropWhile pyWs⟩ : String) = ⟨c :: tail⟩
    rw [List.dropWhile_cons]
    simp [hcw]

theorem pyLstrip_idem (S : String) : pyLstrip (pyLstrip S) = pyLstrip S := by
  show (⟨(S.data.dropWhile pyWs).dropWhile pyWs⟩ : String) = ⟨S.data.dropWhile pyWs⟩
  congr 1
  induction S.data with
  | nil => simp
  | cons c cs ih =>
    rw [List.dropWhile_cons]
    cases hc : pyWs c
    · simp only [Bool.false_eq_true, if_false, ite_false]
      rw [List.dropWhile_cons]
      simp [hc]
    · simpa [hc] using ih

/-- C1: idempotence of the public entry point — whenever `format_str`
succeeds, formatting its own output succeeds and reproduces it
unchanged. -/
theorem c1_format_idempotent :
    ∀ (S : String) (mode : Mode) (T : String),
      format_str S mode = .ok T → format_str T mode = .ok T := by
  intro S mode T h
  rcases h1 : tokenize (pyLstrip S).data with e | ts
  · simp [format_str, h1] at h
  · rcases h2 : parseModule ts with _ | ms
    · simp [format_str, h1, h2] at h
    · by_cases h3 : wfModule ms = true
      · have hfs : format_str S mode = Except.ok ⟨renderModule mode ms⟩ := by
          simp [format_str, h1, h2, h3]
        rw [hfs] at h
        have hT : T = ⟨renderModule mode ms⟩ := (Except.ok.inj h).symm
        subst hT
        have hw : wfModule (canonModule mode ms) = true := by
          rw [wfModule_canon]
          exact h3
        simp only [format_str, pyLstrip_render mode ms h3]
        simp only [tokenize_render mode ms h3, parseModule_toks mode ms, hw,
          if_true, renderModule_canon]
      · have h3' : wfModule ms = false := by simpa using h3
        simp [format_str, h1, h2, h3'] at h

/-- C1 witness: a concrete run — formatting `"  x\n"` yields `"x\n"`, and
formatting that output returns it unchanged. -/
theorem c1_witness : format_str "x\n" defaultMode = .ok "x\n" :=
  c1_format_idempotent "  x\n" defaultMode "x\n" (by decide)

/-- C9: `format_str` lstrips its input before parsing, so formatting any
input equals formatting its lstripped form; leading whitespace never
influences the result. -/
theorem c9_lstrip_insensitive :
    ∀ (S : String) (mode : Mode), format_str S mode = format_str (pyLstrip S) mode := by
  intro S mode
  simp only [format_str, pyLstrip_idem]

/-- C7: the call either fails with a positioned `SyntaxError` exactly when
the input does not parse, or runs to completion returning the full
rendered text — never partial output. -/
theorem c7_atomic_parse :
    ∀ (S : String) (mode : Mode),
      ((format_str S mode).isOk = true ↔ (parseSource (pyLstrip S)).isSome = true)
      ∧ (∀ ms, parseSource (pyLstrip S) = some ms →
          format_str S mode = .ok ⟨renderModule mode ms⟩) := by
  intro S mode
  rcases h1 : tokenize (pyLstrip S).data with e | ts
  · constructor
    · simp [format_str, parseSource, h1, Except.isOk, Except.toBool]
    · intro ms hms
      simp [parseSource, h1] at hms
  · rcases h2 : parseModule ts with _ | ms
    · constructor
      · simp [format_str, parseSource, h1, h2, Except.isOk, Except.toBool]
      · intro ms hms
        simp [parseSource, h1, h2] at hms
    · by_cases h3 : wfModule ms = true
      · constructor
        · simp [format_str, parseSource, h1, h2, h3, Except.isOk, Except.toBool]
        · intro ms' hms'
          have hms2 : ms = ms' := by
            simpa [parseSource, h1, h2, h3] using hms'
          subst hms2
          simp [format_str, h1, h2, h3]
      · have h3' : wfModule ms = false := by simpa using h3
        constructor
        · simp [format_str, parseSource, h1, h2, h3', Except.isOk, Except.toBool]
        · intro ms' hms'
          simp [parseSource, h1, h2, h3'] at hms'

/-- C7 witness: a parse failure (`"("`) yields no output, and a parsing
input (`"x\n"`) yields the full formatted text. -/
theorem c7_witness :
    (format_str "(" defaultMode).isOk = false
    ∧ format_str "x\n" defaultMode = .ok "x\n" := by
  constructor
  · have h := (c7_atomic_parse "(" defaultMode).1
    have h2 : (parseSource (pyLstrip "(")).isSome = false := by decide
    cases hok : (format_str "(" defaultMode).isOk
    · rfl
    · exact absurd (h.mp hok) (by rw [h2]; simp)
  · have h := (c7_atomic_parse "x\n" defaultMode).2
      [Stmt.exprStmt (Expr.nameE "x")] (by decide)
    rw [show (⟨renderModule defaultMode [Stmt.exprStmt (Expr.nameE "x")]⟩ : String)
        = "x\n" from by decide] at h
    exact h

/-- C6: the spec's concrete scenario — `"def f(arg:str='')->None:...\n"`
formatted with the default mode (width 88, quote normalization on) yields
exactly `"def f(arg: str = \"\") -> None:\n    ...\n"`. -/
theorem c6_concrete_scenario :
    format_str "def f(arg:str='')->None:...\n" defaultMode
      = .ok "def f(arg: str = \"\") -> None:\n    ...\n" := by decide

/-- The docstring's second doctest (source lines 40-56): width budget 10 and
quote normalization off make the parameter list explode one-per-line with a
magic trailing comma, reproducing the documented output byte for byte. -/
theorem format_str_doctest_width10 :
    format_str "def f(arg:str='')->None: hey" ⟨∅, 10, false, false⟩
      = .ok "def f(\n    arg: str = '',\n) -> None:\n    hey\n" := by decide

/-- Leading blank lines and spaces are stripped before parsing (source
line 59), so they never reach the output. -/
theorem format_str_strips_leading_blank_lines :
    format_str "   \n\nx\n" defaultMode = .ok "x\n" := by decide

/-! ## C8: `decode_bytes` (lines 94-108)

`decode_bytes` itself is translated from the source; its collaborators
(`io.BytesIO.readline`, `tokenize.detect_encoding`, `io.TextIOWrapper` in
universal-newlines mode) are engine parts outside `src/`, modelled from the
spec's contract ("it consumes raw bytes and produces (decoded text, detected
encoding, detected newline style — one of two conventions)") and the
documented Python semantics.  Bytes are `Nat`s; byte-to-char decoding is a
byte-wise map, since the claim concerns the newline convention, not
multibyte codecs. -/

/-- One raw source line: bytes up to and including the first LF (10), or the
whole input if it has no LF — the semantics of `srcbuf.readline()` on the
first call. -/
def readline1 : List Nat → List Nat
  | [] => []
  | b :: rest => if b = 10 then [10] else b :: readline1 rest

/-- A byte allowed in a coding-cookie name: `[-_.a-zA-Z0-9]`. -/
def isNameByte (b : Nat) : Bool :=
  (48 ≤ b && b ≤ 57) || (65 ≤ b && b ≤ 90) || (97 ≤ b && b ≤ 122)
  || b = 45 || b = 95 || b = 46

/-- Scan a comment body for `coding[:=][ \t]*<name>` and return the name. -/
def cookieScan : List Nat → Option (List Nat)
  | [] => none
  | b :: rest =>
    if b = 99 then
      match rest with
      | 111 :: 100 :: 105 :: 110 :: 103 :: c :: rest2 =>
        if c = 58 || c = 61 then
          let rest3 := rest2.dropWhile (fun x => x = 32 || x = 9)
          let name := rest3.takeWhile isNameByte
          if name.isEmpty then cookieScan rest else some name
        else cookieScan rest
      | _ => cookieScan rest
    else cookieScan rest

/-- Modelled from the spec: the PEP 263 coding cookie of one line — optional
blanks, `#`, then `coding[:=] name` somewhere in the comment. -/
def codingCookie (line : List Nat) : Option String :=
  match line.dropWhile (fun b => b = 32 || b = 9 || b = 12) with
  | 35 :: rest => (cookieScan rest).map (fun name => ⟨name.map Char.ofNat⟩)
  | _ => none

/-- Modelled from the spec: `tokenize.detect_encoding(srcbuf.readline)` —
the encoding from the first line's coding cookie (default `"utf-8"`), plus
the raw lines it consumed: none for empty input, else the first line (the
speculative second read never reaches `decode_bytes`'s uses of `lines`). -/
def detect_encoding (src : List Nat) : String × List (List Nat) :=
  match src with
  | [] => ("utf-8", [])
  | _ =>
    let l0 := readline1 src
    ((codingCookie l0).getD "utf-8", [l0])

/-- Universal-newlines translation (`io.TextIOWrapper` reading): `\r\n` and
bare `\r` both become `\n`. -/
def univNl : List Nat → List Nat
  | [] => []
  | [b] => if b = 13 then [10] else [b]
  | b :: b2 :: rest =>
    if b = 13 then
      if b2 = 10 then 10 :: univNl rest
      else 10 :: univNl (b2 :: rest)
    else b :: univNl (b2 :: rest)

/-- `decode_bytes` (lines 94-108): detect the encoding, return early for
empty input, pick CRLF iff the first line's last two bytes are `b"\r\n"`,
and read the whole buffer with universal newlines. -/
def decode_bytes (src : List Nat) : String × String × String :=
  match detect_encoding src with
  | (encoding, []) => ("", encoding, "\n")
  | (encoding, l0 :: _) =>
    let newline := if l0.drop (l0.length - 2) = [13, 10] then "\r\n" else "\n"
    (⟨(univNl src).map Char.ofNat⟩, encoding, newline)

theorem univNl_no_cr : ∀ (n : Nat) (l : List Nat), l.length ≤ n → 13 ∉ univNl l := by
  intro n
  induction n with
  | zero =>
    intro l h
    cases l with
    | nil => simp [univNl]
    | cons b rest => simp at h
  | succ n ih =>
    intro l hlen
    match l with
    | [] => simp [univNl]
    | [b] =>
      by_cases hb : b = 13
      · simp [univNl, hb]
      · simp [univNl, hb]
        omega
    | b :: b2 :: rest =>
      by_cases hb : b = 13
      · subst hb
        by_cases hb2 : b2 = 10
        · subst hb2
          simp only [univNl, if_pos rfl]
          intro hmem
          rcases List.mem_cons.mp hmem with h13 | h13
          · exact absurd h13 (by decide)
          · exact ih rest (by simp at hlen; omega) h13
        · simp only [univNl, if_pos rfl, if_neg hb2]
          intro hmem
          rcases List.mem_cons.mp hmem with h13 | h13
          · exact absurd h13 (by decide)
          · exact ih (b2 :: rest) (by simp at hlen ⊢; omega) h13
      · simp only [univNl, if_neg hb]
        intro hmem
        rcases List.mem_cons.mp hmem with h13 | h13
        · exact hb h13.symm
        · exact ih (b2 :: rest) (by simp at hlen ⊢; omega) h13

theorem char_ofNat_ne_cr {b : Nat} (hb : b ≠ 13) : Char.ofNat b ≠ '\r' := by
  intro h
  have h2 : (Char.ofNat b).toNat = 13 := by rw [h]; rfl
  by_cases hv : b.isValidChar
  · have : (Char.ofNat b).toNat = b := by
      simp [Char.ofNat, hv, Char.ofNatAux, Char.toNat, UInt32.toNat, BitVec.toNat_ofNatLt]
    omega
  · have : (Char.ofNat b).toNat = 0 := by
      simp [Char.ofNat, hv, Char.toNat, UInt32.toNat]
    omega

theorem decoded_no_cr (src : List Nat) :
    ∀ ch ∈ (univNl src).map Char.ofNat, ch ≠ '\r' := by
  intro ch hch
  simp only [List.mem_map] at hch
  obtain ⟨x, hx, hxc⟩ := hch
  have hx13 : x ≠ 13 := by
    intro hx13
    subst hx13
    exact univNl_no_cr src.length src (Nat.le_refl _) hx
  rw [← hxc]
  exact char_ofNat_ne_cr hx13

/-- C8: for every byte input, the returned newline is one of exactly two
conventions — `"\r\n"` precisely when the first source line ends with the
bytes `b"\r\n"`, and `"\n"` otherwise — the decoded contents are read with
universal newlines so they contain no `'\r'` (only LF terminates lines), and
the detected encoding is returned alongside. -/
theorem c8_decode_bytes :
    ∀ src : List Nat,
      ((decode_bytes src).2.2 = "\r\n" ∨ (decode_bytes src).2.2 = "\n")
      ∧ ((decode_bytes src).2.2 = "\r\n" ↔
          src ≠ [] ∧ (readline1 src).drop ((readline1 src).length - 2) = [13, 10])
      ∧ (∀ ch ∈ (decode_bytes src).1.data, ch ≠ '\r')
      ∧ (decode_bytes src).2.1 = (detect_encoding src).1 := by
  intro src
  cases src with
  | nil =>
    refine ⟨Or.inr rfl, ?_, ?_, rfl⟩
    · constructor
      · intro h
        have h' : ("\n" : String) = "\r\n" := h
        exact absurd h' (by decide)
      · rintro ⟨hne, _⟩
        exact absurd rfl hne
    · intro ch hch
      simp [decode_bytes, detect_encoding] at hch
  | cons b rest =>
    have hde : detect_encoding (b :: rest)
        = ((codingCookie (readline1 (b :: rest))).getD "utf-8",
            [readline1 (b :: rest)]) := rfl
    by_cases hnl : (readline1 (b :: rest)).drop
        ((readline1 (b :: rest)).length - 2) = [13, 10]
    · have hdb : decode_bytes (b :: rest)
          = (⟨(univNl (b :: rest)).map Char.ofNat⟩,
              (codingCookie (readline1 (b :: rest))).getD "utf-8", "\r\n") := by
        simp [decode_bytes, hde, hnl]
      have hnl2 : (decode_bytes (b :: rest)).2.2 = "\r\n" := by rw [hdb]
      refine ⟨Or.inl hnl2, ?_, ?_, by rw [hdb, hde]⟩
      · rw [hnl2]
        simp [hnl]
      · rw [hdb]
        exact decoded_no_cr (b :: rest)
    · have hdb : decode_bytes (b :: rest)
          = (⟨(univNl (b :: rest)).map Char.ofNat⟩,
              (codingCookie (readline1 (b :: rest))).getD "utf-8", "\n") := by
        simp [decode_bytes, hde, hnl]
      have hnl2 : (decode_bytes (b :: rest)).2.2 = "\n" := by rw [hdb]
      refine ⟨Or.inr hnl2, ?_, ?_, by rw [hdb, hde]⟩
      · rw [hnl2]
        constructor
        · intro h
          exact absurd h (by decide)
        · rintro ⟨_, h⟩
          exact absurd h hnl
      · rw [hdb]
        exact decoded_no_cr (b :: rest)

/-- A concrete run of the `decode_bytes` model: CRLF input is detected as
the CRLF convention while the decoded text carries only LF. -/
theorem decode_bytes_crlf_example :
    decode_bytes [120, 13, 10, 121, 13, 10] = ("x\ny\n", "utf-8", "\r\n") := by
  decide

end PythonBlack
